import Mathlib

/-!
# Verification of the bet_tracker matching & scoring engine

A shallow embedding of the core logic of the repository:

* `tools/score_predictions.py` — `normalize`, `find_result`, and the scoring
  loop of `main` (verdict construction and per-site summaries);
* `tools/fetch_results.py` — `parse_matches` (outcome derivation);
* `tools/update_sheet.py` — `rebuild_leaderboard`.

Strings are modelled as `List Char`.  Python's `str.lower` is modelled on its
ASCII fragment (which coincides with Lean's `Char.toLower`); the regex word
class `\w` used by the suffix-stripping substitution is modelled as
`Char.isAlphanum` (underscores have been replaced by spaces before the
substitution runs, so the only remaining `\w` characters are alphanumerics),
and Python whitespace as `Char.isWhitespace`.  Floating point similarity
scores and percentages are modelled as exact rationals.
-/

namespace BetTracker

/-- Strings of the Python program, as lists of characters. -/
abbrev Str := List Char

/-! ## Normalizer (`score_predictions.normalize`)

```python
def normalize(name):
    n = name.lower()
    n = n.replace("-", " ").replace("_", " ")
    n = re.sub(r"\x7massive-word-boundary…", "", n)   -- see SUFFIX_TOKENS below
    n = " ".join(n.split())
    return n
```
-/

/-- `name.lower()` on the ASCII fragment: `Char.toLower` maps `A`–`Z` to
`a`–`z` and fixes everything else, exactly like Python on ASCII input. -/
def pyLower (c : Char) : Char := c.toLower

/-- `n.replace("-", " ").replace("_", " ")`, per character. -/
def replDash (c : Char) : Char := if c = '-' ∨ c = '_' then ' ' else c

/-- The regex word class `\w` after lowering and `-`/`_` replacement:
alphanumeric characters. -/
def isWordChar (c : Char) : Bool := c.isAlphanum

/-- The suffix-token alternation of the `re.sub` pattern in `normalize`
(the source lists `cf` twice; the duplicate is kept). -/
def SUFFIX_TOKENS : List Str :=
  ["fc", "cf", "sc", "ac", "rc", "bv", "sv", "vv", "if", "fk", "sk", "uk",
   "as", "ss", "us", "cd", "sd", "rcd", "ud", "cf"].map String.toList

/-- Whether a maximal `\w`-run matches the suffix alternation. -/
def isSuffixTok (w : Str) : Bool := SUFFIX_TOKENS.contains w

/-- Emit a completed word run: the `re.sub` replaces a run matching the
suffix alternation by the empty string and keeps any other run. -/
def flushRun (run : Str) : Str := if isSuffixTok run then [] else run

/-- Scanner for the `re.sub`: `acc` is the current word run, reversed.
Word runs are flushed (kept or deleted) at non-word characters and at the
end of the input; non-word characters are kept verbatim. -/
def stripGo : Str → Str → Str
  | run, [] => flushRun run.reverse
  | run, c :: cs =>
    if isWordChar c then stripGo (c :: run) cs
    else flushRun run.reverse ++ c :: stripGo [] cs

/-- `re.sub(r"\b(fc|cf|…)\b", "", n)`: delete every maximal word run equal
to a suffix token. -/
def stripSuffixTokens (l : Str) : Str := stripGo [] l

/-- Scanner for Python `str.split()`: `acc` is the current word, reversed;
words are separated by runs of whitespace, empties are dropped. -/
def splitGo : Str → Str → List Str
  | w, [] => if w = [] then [] else [w.reverse]
  | w, c :: cs =>
    if c.isWhitespace then
      (if w = [] then splitGo [] cs else w.reverse :: splitGo [] cs)
    else splitGo (c :: w) cs

/-- Python `n.split()` (split on whitespace runs, no empty words). -/
def pySplit (l : Str) : List Str := splitGo [] l

/-- Python `" ".join(ws)`. -/
def joinSpace : List Str → Str
  | [] => []
  | [w] => w
  | w :: ws => w ++ ' ' :: joinSpace ws

/-- `score_predictions.normalize`: lowercase, `-`/`_` → space, strip
whole-word suffix tokens, collapse whitespace and trim. -/
def normalize (name : Str) : Str :=
  joinSpace (pySplit (stripSuffixTokens ((name.map pyLower).map replDash)))

/-- The maximal `\w`-runs of a string (proof tool used to reason about the
word-boundary semantics of the `re.sub`). -/
def runsGo : Str → Str → List Str
  | run, [] => if run = [] then [] else [run.reverse]
  | run, c :: cs =>
    if isWordChar c then runsGo (c :: run) cs
    else (if run = [] then runsGo [] cs else run.reverse :: runsGo [] cs)

/-- The maximal word runs of a string. -/
def wordRuns (l : Str) : List Str := runsGo [] l

/-! ## Exact fractions

The Python program computes similarity scores and percentages in floating
point.  They are modelled as exact rationals, carried around as unreduced
numerator/denominator pairs so that every operation is plain integer
arithmetic; `Frac.toRat` interprets such a pair in `ℚ`.  Every fraction the
program builds has a positive denominator, and the Boolean comparisons below
agree with the rational order on such fractions (`fleB_iff`/`fltB_iff`). -/

structure Frac where
  num : ℤ
  den : ℤ
deriving DecidableEq

/-- The rational value of a fraction. -/
def Frac.toRat (f : Frac) : ℚ := (f.num : ℚ) / (f.den : ℚ)

/-- Addition of fractions. -/
def fadd (a b : Frac) : Frac := ⟨a.num * b.den + b.num * a.den, a.den * b.den⟩

/-- Halving a fraction (`… / 2`). -/
def fhalf (a : Frac) : Frac := ⟨a.num, a.den * 2⟩

/-- `a <= b` by cross multiplication (correct for positive denominators). -/
def fleB (a b : Frac) : Bool := a.num * b.den ≤ b.num * a.den

/-- `a < b` by cross multiplication (correct for positive denominators). -/
def fltB (a b : Frac) : Bool := a.num * b.den < b.num * a.den

/-! ## Matcher (`score_predictions.find_result`)

The similarity metric is rapidfuzz's `fuzz.token_sort_ratio`: split each
string on whitespace, sort the tokens (lexicographically, by code point),
rejoin with single spaces, and take the normalized indel similarity of the
two resulting strings scaled to 0–100.  The indel distance of `a` and `b` is
`|a| + |b| - 2·lcs(a, b)`, so the score is `200·lcs(a,b)/(|a|+|b|)` (and 100
when both strings are empty, matching rapidfuzz). -/

/-- Length of a longest common subsequence, by the textbook recurrence; the
fuel argument (any value `≥ |a| + |b|` is enough, each step consumes at
least one character) makes the recursion structural. -/
def lcsF : Nat → Str → Str → Nat
  | 0, _, _ => 0
  | _ + 1, [], _ => 0
  | _ + 1, _ :: _, [] => 0
  | fuel + 1, x :: xs, y :: ys =>
    if x = y then lcsF fuel xs ys + 1
    else max (lcsF fuel xs (y :: ys)) (lcsF fuel (x :: xs) ys)

/-- Length of a longest common subsequence. -/
def lcs (a b : Str) : Nat := lcsF (a.length + b.length) a b

/-- `fuzz.ratio`: normalized indel similarity, scaled to 0–100. -/
def ratioF (a b : Str) : Frac :=
  if a.length + b.length = 0 then ⟨100, 1⟩
  else ⟨200 * (lcs a b : ℤ), (a.length : ℤ) + (b.length : ℤ)⟩

/-- Python `<` on strings: lexicographic comparison by code point. -/
def strLtB : Str → Str → Bool
  | _, [] => false
  | [], _ :: _ => true
  | a :: as', b :: bs => a.toNat < b.toNat || (a = b && strLtB as' bs)

/-- Python `<=` on strings. -/
def strLeB (a b : Str) : Bool := ! strLtB b a

/-- `" ".join(sorted(s.split()))`, the token-sort preprocessing of
`fuzz.token_sort_ratio` (`sorted` is a stable ascending sort). -/
def token_sort (s : Str) : Str :=
  joinSpace (List.insertionSort (fun a b => strLeB a b) (pySplit s))

/-- `fuzz.token_sort_ratio`. -/
def token_sort_ratioF (a b : Str) : Frac := ratioF (token_sort a) (token_sort b)

/-- One entry of the `matches` list of a results snapshot, as read by the
scorer.  `short_home`/`short_away` are accessed with `r.get(…, "")`, so an
absent key is the empty string; `result` is `"1"`, `"X"`, `"2"` or null. -/
structure MatchResult where
  home_team : Str
  away_team : Str
  short_home : Str
  short_away : Str
  result : Option Str
  home_score : Option Int
  away_score : Option Int
  competition : Str
deriving DecidableEq

/-- The candidate name pairs tried for one result, in loop order
(`cand_home` outer over `[home_team, short_home]`, `cand_away` inner over
`[away_team, short_away]`). -/
def candPairs (r : MatchResult) : List (Str × Str) :=
  [(r.home_team, r.away_team), (r.home_team, r.short_away),
   (r.short_home, r.away_team), (r.short_home, r.short_away)]

/-- `FUZZY_THRESHOLD = 80`. -/
def FUZZY_THRESHOLD : Frac := ⟨80, 1⟩

/-- The combined score of one candidate pair:
`(token_sort_ratio(norm_pred_home, normalize(cand_home)) +
  token_sort_ratio(norm_pred_away, normalize(cand_away))) / 2`. -/
def pairScore (nh na : Str) (p : Str × Str) : Frac :=
  fhalf (fadd (token_sort_ratioF nh (normalize p.1))
              (token_sort_ratioF na (normalize p.2)))

/-- The body of the innermost matcher loop for one candidate pair: skip
pairs with an empty raw name (`if not cand_home or not cand_away: continue`)
and update the running `(best_score, best_match)` state on strictly greater
combined scores. -/
def innerStep (nh na : Str) (r : MatchResult) (st : Frac × Option MatchResult)
    (p : Str × Str) : Frac × Option MatchResult :=
  if p.1 = [] ∨ p.2 = [] then st
  else if fltB st.1 (pairScore nh na p) then (pairScore nh na p, some r) else st

/-- The body of the matcher loop for one result `r`: fold the candidate
pairs over the running `(best_score, best_match)` state. -/
def stepResult (nh na : Str) (st : Frac × Option MatchResult) (r : MatchResult) :
    Frac × Option MatchResult :=
  (candPairs r).foldl (innerStep nh na r) st

/-- `score_predictions.find_result`. -/
def find_result (pred_home pred_away : Str) (results : List MatchResult) :
    Option MatchResult :=
  let nh := normalize pred_home
  let na := normalize pred_away
  let best := results.foldl (stepResult nh na) (⟨0, 1⟩, none)
  if fleB FUZZY_THRESHOLD best.1 then best.2 else none

/-- Specification view of the matcher: the best combined score (as a
rational) a single candidate attains over its present name variants, `0`
when no variant is usable. -/
def cscoreQ (nh na : Str) (r : MatchResult) : ℚ :=
  ((candPairs r).filter (fun p => ¬(p.1 = [] ∨ p.2 = []))).foldl
    (fun q p => max q (pairScore nh na p).toRat) 0

/-- Specification view of the matcher: the best combined score over all
candidates and variants, `0` for an empty candidate list. -/
def bestScoreQ (nh na : Str) (rs : List MatchResult) : ℚ :=
  rs.foldl (fun q r => max q (cscoreQ nh na r)) 0

/-! ## Results parsing (`fetch_results.parse_matches`) -/

/-- One raw match record of the football-data API, with the fields the
parser reads (`None`/absent JSON values are `none`). -/
structure RawMatch where
  status : Str
  winner : Option Str
  ft_home : Option Int
  ft_away : Option Int
  homeName : Str
  awayName : Str
  shortHome : Option Str
  shortAway : Option Str
  competition : Str
deriving DecidableEq

/-- `WINNER_MAP = {"HOME_TEAM": "1", "DRAW": "X", "AWAY_TEAM": "2"}`, looked
up with `.get` (absent winner or unknown key gives `none`). -/
def WINNER_MAP (w : Option Str) : Option Str :=
  match w with
  | some s =>
    if s = "HOME_TEAM".toList then some "1".toList
    else if s = "DRAW".toList then some "X".toList
    else if s = "AWAY_TEAM".toList then some "2".toList
    else none
  | none => none

/-- The result code of one raw match: map the winner indicator; if that
yields nothing, fall back to comparing the full-time scores when both are
present; otherwise no result. -/
def deriveResult (m : RawMatch) : Option Str :=
  match WINNER_MAP m.winner with
  | some r => some r
  | none =>
    match m.ft_home, m.ft_away with
    | some h, some a =>
      some (if h > a then "1".toList else if h = a then "X".toList else "2".toList)
    | _, _ => none

/-- Parse one raw match: skipped unless `status == "FINISHED"`; short names
default to the full names when absent. -/
def parseOne (m : RawMatch) : Option MatchResult :=
  if m.status = "FINISHED".toList then
    some { home_team := m.homeName
           away_team := m.awayName
           short_home := m.shortHome.getD m.homeName
           short_away := m.shortAway.getD m.awayName
           result := deriveResult m
           home_score := m.ft_home
           away_score := m.ft_away
           competition := m.competition }
  else none

/-- `fetch_results.parse_matches`, returning `(matches, finished, skipped)`. -/
def parse_matches (raw : List RawMatch) : List MatchResult × Nat × Nat :=
  (raw.filterMap parseOne,
   (raw.filter (fun m => m.status = "FINISHED".toList)).length,
   (raw.filter (fun m => ¬ m.status = "FINISHED".toList)).length)

/-! ## Scorer (the scoring loop of `score_predictions.main`) -/

/-- One prediction record of a per-site snapshot. -/
structure Prediction where
  home_team : Str
  away_team : Str
  prediction : Str
deriving DecidableEq

/-- One entry of the `details` list of the output snapshot. -/
structure Detail where
  site : Str
  home_team : Str
  away_team : Str
  prediction : Str
  result : Str
  correct : Str
deriving DecidableEq

/-- The per-site counters of the `summary` object. -/
structure SiteSummary where
  total : Nat
  correct : Nat
  unmatched : Nat
deriving DecidableEq

/-- The `(result, correct)` pair the scoring loop computes for one
prediction: `"UNMATCHED"` twice when the matcher finds nothing; otherwise
`result_val = matched["result"] or "?"` (so a null or empty stored result
becomes `"?"`), `correct = "UNMATCHED"` when `result_val == "?"`, else
`"Y"`/`"N"` by comparing the predicted call. -/
def verdict (results : List MatchResult) (p : Prediction) : Str × Str :=
  match find_result p.home_team p.away_team results with
  | none => ("UNMATCHED".toList, "UNMATCHED".toList)
  | some m =>
    let result_val :=
      match m.result with
      | none => "?".toList
      | some s => if s = [] then "?".toList else s
    if result_val = "?".toList then (result_val, "UNMATCHED".toList)
    else (result_val, if p.prediction = result_val then "Y".toList else "N".toList)

/-- One iteration of the scoring loop: append the detail row and bump the
site's counters (`unmatched` for an UNMATCHED verdict, otherwise `total`
and, on `"Y"`, `correct`). -/
def scoreStep (results : List MatchResult) (site : Str)
    (st : List Detail × SiteSummary) (p : Prediction) : List Detail × SiteSummary :=
  let v := verdict results p
  let s := st.2
  let s' :=
    if v.2 = "UNMATCHED".toList then
      { s with unmatched := s.unmatched + 1 }
    else
      { s with total := s.total + 1,
               correct := s.correct + (if v.2 = "Y".toList then 1 else 0) }
  (st.1 ++ [{ site := site, home_team := p.home_team, away_team := p.away_team,
              prediction := p.prediction, result := v.1, correct := v.2 }], s')

/-- Score all predictions of one site. -/
def scoreSite (results : List MatchResult) (site : Str) (preds : List Prediction) :
    List Detail × SiteSummary :=
  preds.foldl (scoreStep results site) ([], ⟨0, 0, 0⟩)

/-- The detail row the scoring loop emits for one prediction. -/
def mkDetail (results : List MatchResult) (site : Str) (p : Prediction) : Detail :=
  { site := site, home_team := p.home_team, away_team := p.away_team,
    prediction := p.prediction, result := (verdict results p).1,
    correct := (verdict results p).2 }

/-- `SITES`, the fixed source list. -/
def SITES : List Str :=
  ["forebet", "predictz", "onemillion", "vitibet", "freesupertips", "claude"].map
    String.toList

/-- The output snapshot of a scoring run (without the date field). -/
structure ScoresOutput where
  details : List Detail
  summary : List (Str × SiteSummary)
deriving DecidableEq

/-- The scoring loop of `main`: for each site of `SITES` in order, score its
predictions; `details` concatenates the per-site detail rows in that order
and `summary` holds one counter record per site. -/
def runScores (preds : Str → List Prediction) (results : List MatchResult) :
    ScoresOutput :=
  let per := SITES.map (fun site => (site, scoreSite results site (preds site)))
  { details := (per.map (fun x => x.2.1)).flatten
    summary := per.map (fun x => (x.1, x.2.2)) }

/-! ## Snapshot loading (`load_predictions`, `load_results`) -/

/-- A per-site predictions snapshot (`data["status"]`, `data["predictions"]`). -/
structure PredFile where
  status : Str
  predictions : List Prediction
deriving DecidableEq

/-- A results snapshot (`data.get("status")`, `data["matches"]`). -/
structure ResultsFile where
  status : Option Str
  matches' : List MatchResult
deriving DecidableEq

/-- `load_predictions`: a missing file or a `"failed"` status degrades that
site to an empty prediction list; otherwise its predictions are used. -/
def load_predictions (files : Str → Option PredFile) : Str → List Prediction :=
  fun site =>
    match files site with
    | none => []
    | some f => if f.status = "failed".toList then [] else f.predictions

/-- `load_results`: a missing results file or a `"failed"` status aborts the
run (`sys.exit(1)`, modelled as `Except.error`). -/
def load_results (file : Option ResultsFile) : Except Unit (List MatchResult) :=
  match file with
  | none => Except.error ()
  | some f =>
    if f.status = some ("failed".toList) then Except.error () else Except.ok f.matches'

/-- A whole scoring run for one date: load the results (aborting when they
are unavailable), load the per-site predictions, and score. -/
def runDay (file : Option ResultsFile) (files : Str → Option PredFile) :
    Except Unit ScoresOutput :=
  match load_results file with
  | Except.error e => Except.error e
  | Except.ok results => Except.ok (runScores (load_predictions files) results)

/-- Pointwise update of the predictions-snapshot assignment. -/
def setFile (files : Str → Option PredFile) (site : Str) (v : Option PredFile) :
    Str → Option PredFile :=
  fun s => if s = site then v else files s

/-! ## Aggregator (`update_sheet.rebuild_leaderboard`)

The function reads the Predictions tab as a list of rows (lists of cells, of
arbitrary length — short rows are guarded with `len(row) > i` checks, which
is `List.getD` here).  Percentages are fractions; the displayed strings
`f"{pct:.0f}%"`/`f"{avg:.1f}%"` round the value half-to-even, and the sort
key `float(avg.replace("%", ""))` recovers exactly the displayed one-decimal
value, so a cell is modelled as its rounded numeric value (`none` for the
`"—"` no-data marker). -/

/-- A sheet row. -/
abbrev Row := List Str

/-- `row[0] if len(row) > 0 else ""` (the run date). -/
def rowDate (row : Row) : Str := row.getD 0 []

/-- `row[1] if len(row) > 1 else ""` (the site). -/
def rowSite (row : Row) : Str := row.getD 1 []

/-- `row[2] if len(row) > 2 else ""` (the home team). -/
def rowHome (row : Row) : Str := row.getD 2 []

/-- `row[6] if len(row) > 6 else ""` (the Correct column). -/
def rowCorrect (row : Row) : Str := row.getD 6 []

/-- The guards of the counter loop: skip rows that are too short, have no
date, an unknown site, or a `SCRAPE_FAILED` placeholder. -/
def validRow (row : Row) : Bool :=
  ¬ row.length < 3 && ¬ rowDate row = [] && SITES.contains (rowSite row)
    && ¬ rowHome row = "SCRAPE_FAILED".toList

/-- One iteration of the counter loop: on a valid row, bump that
`(date, site)` entry — `total` for a `"Y"`/`"N"` correct value, `correct`
for `"Y"` (the counters dictionary is modelled as a total function with
default `(0, 0)`). -/
def tallyRow (f : Str × Str → Nat × Nat) (row : Row) : Str × Str → Nat × Nat :=
  if validRow row then
    fun k =>
      if k = (rowDate row, rowSite row) then
        let c := f k
        if rowCorrect row = "Y".toList then (c.1 + 1, c.2 + 1)
        else if rowCorrect row = "N".toList then (c.1 + 1, c.2)
        else c
      else f k
  else f

/-- The `(total, correct)` counters per `(date, site)`, over the data rows
(the header row is skipped). -/
def countersOf (rows : List Row) : Str × Str → Nat × Nat :=
  (rows.drop 1).foldl tallyRow (fun _ => (0, 0))

/-- The distinct dates contributed by valid data rows (`all_dates`), sorted
ascending (Python compares strings lexicographically by code point). -/
def sortedDatesOf (rows : List Row) : List Str :=
  List.insertionSort (fun a b => strLeB a b)
    (((rows.drop 1).filter validRow).map rowDate).dedup

/-- `correct / total * 100` for one counter entry. -/
def pctF (c : Nat × Nat) : Frac := ⟨(c.2 : ℤ) * 100, (c.1 : ℤ)⟩

/-- Round a fraction (with positive denominator) to the nearest integer,
ties to even: the rounding of Python's `format`. -/
def rheF (f : Frac) : ℤ :=
  let q := f.num.ediv f.den
  let r2 := 2 * (f.num - q * f.den)
  if r2 < f.den then q
  else if f.den < r2 then q + 1
  else if q % 2 = 0 then q else q + 1

/-- Sum of a list of fractions. -/
def fsum (l : List Frac) : Frac := l.foldl fadd ⟨0, 1⟩

/-- Division of a fraction by a positive natural (`sum / len`). -/
def fdivNat (f : Frac) (n : Nat) : Frac := ⟨f.num, f.den * (n : ℤ)⟩

/-- One data row of the leaderboard: the site, the per-day cells (the
rounded displayed percent, `none` for `"—"`), the full-precision
`numeric_pcts` list, and the full-precision average (`none` when there is
no data at all). -/
structure LBRow where
  site : Str
  dayCells : List (Option ℤ)
  numericPcts : List Frac
  avg : Option Frac
deriving DecidableEq

/-- One iteration of the per-day loop of a site's leaderboard row: a date
with a positive `total` contributes its percentage cell and its
full-precision value; any other date contributes the `"—"` cell only. -/
def siteRowStep (cnt : Str × Str → Nat × Nat) (site : Str)
    (st : List (Option ℤ) × List Frac) (d : Str) : List (Option ℤ) × List Frac :=
  let c := cnt (d, site)
  if 0 < c.1 then (st.1 ++ [some (rheF (pctF c))], st.2 ++ [pctF c])
  else (st.1 ++ [none], st.2)

/-- Build one site's leaderboard row. -/
def siteRow (cnt : Str × Str → Nat × Nat) (dates : List Str) (site : Str) : LBRow :=
  let st := dates.foldl (siteRowStep cnt site) ([], [])
  { site := site, dayCells := st.1, numericPcts := st.2,
    avg := if st.2 = [] then none else some (fdivNat (fsum st.2) st.2.length) }

/-- The sort key of a leaderboard row:
`float(avg.replace("%", "")) if avg != "—" else -1`, where the displayed
average is the full-precision average rounded half-to-even to one decimal. -/
def sortKeyF (r : LBRow) : Frac :=
  match r.avg with
  | none => ⟨-1, 1⟩
  | some f => ⟨rheF ⟨10 * f.num, f.den⟩, 10⟩

/-- `update_sheet.rebuild_leaderboard`: the sorted date columns and the data
rows sorted by average descending (`list.sort(key=…, reverse=True)` is a
stable descending sort). -/
def rebuild_leaderboard (rows : List Row) : List Str × List LBRow :=
  let cnt := countersOf rows
  let dates := sortedDatesOf rows
  let data := SITES.map (siteRow cnt dates)
  (dates, List.insertionSort (fun x y => fleB (sortKeyF y) (sortKeyF x)) data)

/-! ## Concrete instances used in the claims -/

/-- The prediction of the end-to-end example. -/
def pArsenal : Prediction :=
  { home_team := "Arsenal".toList, away_team := "Chelsea".toList,
    prediction := "1".toList }

/-- The raw API record of the end-to-end example: finished, no winner
indicator, full-time score 2–1. -/
def rawArsenal : RawMatch :=
  { status := "FINISHED".toList, winner := none, ft_home := some 2,
    ft_away := some 1, homeName := "Arsenal FC".toList,
    awayName := "Chelsea FC".toList, shortHome := some ("Arsenal".toList),
    shortAway := some ("Chelsea".toList), competition := [] }

/-- The parsed result of the end-to-end example. -/
def mrArsenal : MatchResult :=
  { home_team := "Arsenal FC".toList, away_team := "Chelsea FC".toList,
    short_home := "Arsenal".toList, short_away := "Chelsea".toList,
    result := some ("1".toList), home_score := some 2, away_score := some 1,
    competition := [] }

/-- A result with no derivable outcome (stored result is null). -/
def mrUnknown : MatchResult :=
  { home_team := "Arsenal FC".toList, away_team := "Chelsea FC".toList,
    short_home := "Arsenal".toList, short_away := "Chelsea".toList,
    result := none, home_score := none, away_score := none, competition := [] }

/-- A predictions assignment with a single forebet prediction. -/
def predsForebet : Str → List Prediction :=
  fun s => if s = "forebet".toList then [pArsenal] else []

/-- A prediction whose names normalize to the empty string. -/
def pFC : Prediction :=
  { home_team := "FC".toList, away_team := "FC".toList, prediction := "1".toList }

/-- A result whose raw names are the nonempty string `"FC"` (normalizing to
the empty string). -/
def mrFCnames : MatchResult :=
  { home_team := "FC".toList, away_team := "FC".toList,
    short_home := "FC".toList, short_away := "FC".toList,
    result := some ("1".toList), home_score := none, away_score := none,
    competition := [] }

/-- A result whose raw names are all empty. -/
def mrNoNames : MatchResult :=
  { home_team := [], away_team := [], short_home := [], short_away := [],
    result := some ("1".toList), home_score := none, away_score := none,
    competition := [] }

/-- A healthy results snapshot with no matches. -/
def rfEmpty : ResultsFile := { status := some ("ok".toList), matches' := [] }

/-- A one-day sheet: a header row and a single scored forebet row. -/
def rowsW : List Row :=
  [[],
   ["2026-02-25".toList, "forebet".toList, "h".toList, "a".toList,
    "1".toList, "1".toList, "Y".toList]]

/-- The detail row the scorer emits for the end-to-end example. -/
def dArsenal : Detail :=
  { site := "forebet".toList, home_team := "Arsenal".toList,
    away_team := "Chelsea".toList, prediction := "1".toList,
    result := "1".toList, correct := "Y".toList }

/-- The leaderboard row `rowsW` produces for forebet (one day, 1/1 correct). -/
def fbRowW : LBRow :=
  { site := "forebet".toList, dayCells := [some 100],
    numericPcts := [⟨100, 1⟩], avg := some ⟨100, 1⟩ }

/-- The leaderboard row `rowsW` produces for a site with no data. -/
def emptyRowW (site : Str) : LBRow :=
  { site := site, dayCells := [none], numericPcts := [], avg := none }

/-! ## Lemmas about the normalizer -/

theorem toLower_idem (c : Char) : c.toLower.toLower = c.toLower := by
  unfold Char.toLower
  by_cases h : c.toNat ≥ 65 ∧ c.toNat ≤ 90
  · rw [if_pos h]
    have hv : (c.toNat + 32).isValidChar := by
      rcases h with ⟨h1, h2⟩
      exact Or.inl (by omega)
    have ht : (Char.ofNat (c.toNat + 32)).toNat = c.toNat + 32 := by
      rw [Char.ofNat, dif_pos hv]
      simp [Char.ofNatAux, Char.toNat, UInt32.toNat, BitVec.toNat_ofNatLt]
    rw [if_neg]
    rw [ht]
    omega
  · rw [if_neg h, if_neg h]

theorem mem_flushRun {c : Char} {run : Str} (h : c ∈ flushRun run) : c ∈ run := by
  by_cases hs : isSuffixTok run
  · simp [flushRun, hs] at h
  · simpa [flushRun, hs] using h

theorem mem_stripGo : ∀ (l acc : Str) (c : Char), c ∈ stripGo acc l → c ∈ acc ∨ c ∈ l := by
  intro l
  induction l with
  | nil =>
    intro acc c h
    simp only [stripGo] at h
    exact Or.inl (List.mem_reverse.mp (mem_flushRun h))
  | cons d cs ih =>
    intro acc c h
    by_cases hw : isWordChar d
    · simp only [stripGo, hw, if_pos] at h
      rcases ih (d :: acc) c h with h1 | h1
      · rcases List.mem_cons.mp h1 with h2 | h2
        · exact Or.inr (h2 ▸ List.mem_cons_self d cs)
        · exact Or.inl h2
      · exact Or.inr (List.mem_cons_of_mem d h1)
    · simp only [stripGo, hw] at h
      rw [if_neg (by simp [hw])] at h
      rcases List.mem_append.mp h with h1 | h1
      · exact Or.inl (List.mem_reverse.mp (mem_flushRun h1))
      · rcases List.mem_cons.mp h1 with h2 | h2
        · exact Or.inr (h2 ▸ List.mem_cons_self d cs)
        · rcases ih [] c h2 with h3 | h3
          · simp at h3
          · exact Or.inr (List.mem_cons_of_mem d h3)

theorem mem_splitGo :
    ∀ (l acc : Str) (w : Str), w ∈ splitGo acc l → ∀ c ∈ w, c ∈ acc ∨ c ∈ l := by
  intro l
  induction l with
  | nil =>
    intro acc w hw c hc
    simp only [splitGo] at hw
    by_cases ha : acc = ([] : Str)
    · simp [ha] at hw
    · rw [if_neg ha] at hw
      simp only [List.mem_singleton] at hw
      subst hw
      exact Or.inl (List.mem_reverse.mp hc)
  | cons d cs ih =>
    intro acc w hw c hc
    by_cases hws : d.isWhitespace
    · simp only [splitGo, hws, if_pos] at hw
      by_cases ha : acc = ([] : Str)
      · rw [if_pos ha] at hw
        rcases ih [] w hw c hc with h2 | h2
        · simp at h2
        · exact Or.inr (List.mem_cons_of_mem d h2)
      · rw [if_neg ha] at hw
        rcases List.mem_cons.mp hw with h1 | h1
        · subst h1
          exact Or.inl (List.mem_reverse.mp hc)
        · rcases ih [] w h1 c hc with h2 | h2
          · simp at h2
          · exact Or.inr (List.mem_cons_of_mem d h2)
    · simp only [splitGo, hws] at hw
      rw [if_neg (by simp [hws])] at hw
      rcases ih (d :: acc) w hw c hc with h1 | h1
      · rcases List.mem_cons.mp h1 with h2 | h2
        · exact Or.inr (h2 ▸ List.mem_cons_self d cs)
        · exact Or.inl h2
      · exact Or.inr (List.mem_cons_of_mem d h1)

theorem mem_joinSpace :
    ∀ (ws : List Str) (c : Char), c ∈ joinSpace ws → c = ' ' ∨ ∃ w ∈ ws, c ∈ w := by
  intro ws
  induction ws with
  | nil => intro c h; simp [joinSpace] at h
  | cons w rest ih =>
    intro c h
    match rest, h with
    | [], h =>
      simp only [joinSpace] at h
      exact Or.inr ⟨w, by simp, h⟩
    | w' :: rest', h =>
      simp only [joinSpace] at h
      rcases List.mem_append.mp h with h1 | h1
      · exact Or.inr ⟨w, by simp, h1⟩
      · rcases List.mem_cons.mp h1 with h2 | h2
        · exact Or.inl h2
        · rcases ih c h2 with h3 | ⟨v, hv, hcv⟩
          · exact Or.inl h3
          · exact Or.inr ⟨v, List.mem_cons_of_mem w hv, hcv⟩

theorem ws_not_word (c : Char) (h : c.isWhitespace = true) : isWordChar c = false := by
  have h4 : c = ' ' ∨ c = '\t' ∨ c = '\r' ∨ c = '\n' := by
    simpa [Char.isWhitespace, or_assoc] using h
  rcases h4 with h1 | h1 | h1 | h1 <;> subst h1 <;> decide

theorem runs_append {c : Char} (hc : isWordChar c = false) :
    ∀ (l1 l2 acc : Str), runsGo acc (l1 ++ c :: l2) = runsGo acc l1 ++ runsGo [] l2 := by
  intro l1
  induction l1 with
  | nil =>
    intro l2 acc
    simp only [List.nil_append, runsGo, hc]
    by_cases ha : acc = ([] : Str) <;> simp [ha]
  | cons d t ih =>
    intro l2 acc
    by_cases hd : isWordChar d
    · simp only [List.cons_append, runsGo, hd, if_pos]
      exact ih l2 (d :: acc)
    · simp only [List.cons_append, runsGo, hd, Bool.false_eq_true, if_neg,
        not_false_eq_true]
      by_cases ha : acc = ([] : Str) <;> simp [ha, ih l2 []]

theorem strip_append {c : Char} (hc : isWordChar c = false) :
    ∀ (l1 l2 acc : Str),
      stripGo acc (l1 ++ c :: l2) = stripGo acc l1 ++ c :: stripGo [] l2 := by
  intro l1
  induction l1 with
  | nil =>
    intro l2 acc
    simp [stripGo, hc]
  | cons d t ih =>
    intro l2 acc
    by_cases hd : isWordChar d
    · simp only [List.cons_append, stripGo, hd, if_pos]
      exact ih l2 (d :: acc)
    · simp only [List.cons_append, stripGo, hd, Bool.false_eq_true, if_neg,
        not_false_eq_true]
      simp [ih l2 []]

theorem split_append {c : Char} (hc : c.isWhitespace = true) :
    ∀ (l1 l2 acc : Str),
      splitGo acc (l1 ++ c :: l2) = splitGo acc l1 ++ splitGo [] l2 := by
  intro l1
  induction l1 with
  | nil =>
    intro l2 acc
    simp only [List.nil_append, splitGo, hc, if_pos]
    by_cases ha : acc = ([] : Str) <;> simp [ha]
  | cons d t ih =>
    intro l2 acc
    by_cases hd : d.isWhitespace
    · simp only [List.cons_append, splitGo, hd, if_pos]
      by_cases ha : acc = ([] : Str) <;> simp [ha, ih l2 []]
    · simp only [List.cons_append, splitGo, hd, Bool.false_eq_true, if_neg,
        not_false_eq_true]
      exact ih l2 (d :: acc)

theorem runs_allWord :
    ∀ (w acc : Str), (∀ x ∈ w, isWordChar x = true) →
      runsGo acc w = if acc.reverse ++ w = [] then [] else [acc.reverse ++ w] := by
  intro w
  induction w with
  | nil =>
    intro acc _
    simp only [runsGo, List.append_nil]
    by_cases ha : acc = ([] : Str) <;> simp [ha]
  | cons d t ih =>
    intro acc hw
    have hd : isWordChar d = true := hw d (by simp)
    simp only [runsGo, hd, if_pos]
    rw [ih (d :: acc) (fun x hx => hw x (List.mem_cons_of_mem d hx))]
    have hne : (d :: acc).reverse ++ t ≠ [] := by simp
    have hne2 : acc.reverse ++ d :: t ≠ [] := by simp
    rw [if_neg hne, if_neg hne2]
    simp

theorem runs_nonsuffix_strip :
    ∀ (l acc : Str), (∀ r ∈ runsGo acc l, isSuffixTok r = false) →
      stripGo acc l = acc.reverse ++ l := by
  intro l
  induction l with
  | nil =>
    intro acc h
    simp only [stripGo, List.append_nil, flushRun]
    by_cases ha : acc = ([] : Str)
    · simp [ha, isSuffixTok, SUFFIX_TOKENS]
    · have hsu := h acc.reverse (by simp [runsGo, ha])
      rw [if_neg (by simp [hsu])]
  | cons d t ih =>
    intro acc h
    by_cases hd : isWordChar d
    · simp only [stripGo, hd, if_pos]
      rw [ih (d :: acc) (by simpa [runsGo, hd] using h)]
      simp
    · simp only [stripGo, hd, Bool.false_eq_true, if_neg, not_false_eq_true]
      have hrest : ∀ r ∈ runsGo [] t, isSuffixTok r = false := by
        intro r hr
        apply h
        by_cases ha : acc = ([] : Str) <;> simp [runsGo, hd, ha, hr]
      rw [ih [] hrest]
      simp only [List.nil_append, flushRun]
      by_cases ha : acc = ([] : Str)
      · simp [ha, isSuffixTok, SUFFIX_TOKENS]
      · have hsu := h acc.reverse (by simp [runsGo, hd, ha])
        rw [if_neg (by simp [hsu])]
        simp

theorem strip_runs_nonsuffix :
    ∀ (l acc : Str), (∀ x ∈ acc, isWordChar x = true) →
      ∀ r ∈ wordRuns (stripGo acc l), isSuffixTok r = false := by
  intro l
  induction l with
  | nil =>
    intro acc hacc r hr
    simp only [stripGo, flushRun] at hr
    by_cases hs : isSuffixTok acc.reverse
    · simp [hs, wordRuns, runsGo] at hr
    · rw [if_neg (by simp [hs])] at hr
      rw [wordRuns, runs_allWord acc.reverse []
        (fun x hx => hacc x (List.mem_reverse.mp hx))] at hr
      by_cases ha : acc.reverse = ([] : Str)
      · simp [ha] at hr
      · rw [if_neg (by simpa using ha)] at hr
        simp only [List.nil_append, List.mem_singleton] at hr
        subst hr
        simpa using hs
  | cons d t ih =>
    intro acc hacc r hr
    by_cases hd : isWordChar d
    · simp only [stripGo, hd, if_pos] at hr
      exact ih (d :: acc) (by
        intro x hx
        rcases List.mem_cons.mp hx with h1 | h1
        · exact h1 ▸ hd
        · exact hacc x h1) r hr
    · simp only [stripGo, hd, Bool.false_eq_true, if_neg, not_false_eq_true] at hr
      rw [wordRuns, runs_append (by simpa using hd) (flushRun acc.reverse)
        (stripGo [] t) []] at hr
      rcases List.mem_append.mp hr with h1 | h1
      · by_cases hs : isSuffixTok acc.reverse
        · simp [flushRun, hs, runsGo] at h1
        · rw [flushRun, if_neg (by simp [hs])] at h1
          rw [runs_allWord acc.reverse []
            (fun x hx => hacc x (List.mem_reverse.mp hx))] at h1
          by_cases ha : acc.reverse = ([] : Str)
          · simp [ha] at h1
          · rw [if_neg (by simpa using ha)] at h1
            simp only [List.nil_append, List.mem_singleton] at h1
            subst h1
            simpa using hs
      · exact ih [] (by simp) r h1

theorem joinSpace_runs :
    ∀ ws : List Str, wordRuns (joinSpace ws) = (ws.map wordRuns).flatten := by
  intro ws
  induction ws with
  | nil => simp [joinSpace, wordRuns, runsGo]
  | cons w rest ih =>
    match rest with
    | [] => simp [joinSpace]
    | w' :: rest' =>
      show wordRuns (w ++ ' ' :: joinSpace (w' :: rest')) = _
      rw [wordRuns, runs_append (c := ' ') (by decide) w (joinSpace (w' :: rest')) []]
      rw [← wordRuns, ← wordRuns, ih]
      simp

theorem split_runs :
    ∀ (l acc : Str),
      ((splitGo acc l).map wordRuns).flatten = wordRuns (acc.reverse ++ l) := by
  intro l
  induction l with
  | nil =>
    intro acc
    simp only [splitGo, List.append_nil]
    by_cases ha : acc = ([] : Str)
    · simp [ha, wordRuns, runsGo]
    · rw [if_neg ha]
      simp
  | cons d t ih =>
    intro acc
    by_cases hd : d.isWhitespace
    · have hdw : isWordChar d = false := ws_not_word d hd
      simp only [splitGo, hd, if_pos]
      rw [show acc.reverse ++ d :: t = acc.reverse ++ d :: t from rfl,
        wordRuns, runs_append hdw acc.reverse t []]
      by_cases ha : acc = ([] : Str)
      · rw [if_pos ha]
        rw [ih []]
        simp [ha, wordRuns, runsGo]
      · rw [if_neg ha]
        simp only [List.map_cons, List.flatten_cons]
        rw [ih []]
        simp [wordRuns]
    · simp only [splitGo, hd, Bool.false_eq_true, if_neg, not_false_eq_true]
      rw [ih (d :: acc)]
      simp

theorem splitGo_nonWs :
    ∀ (w acc : Str), (∀ x ∈ w, x.isWhitespace = false) →
      splitGo acc w = if acc.reverse ++ w = [] then [] else [acc.reverse ++ w] := by
  intro w
  induction w with
  | nil =>
    intro acc _
    simp only [splitGo, List.append_nil]
    by_cases ha : acc = ([] : Str) <;> simp [ha]
  | cons d t ih =>
    intro acc hw
    have hd : d.isWhitespace = false := hw d (by simp)
    simp only [splitGo, hd, Bool.false_eq_true, if_neg, not_false_eq_true]
    rw [ih (d :: acc) (fun x hx => hw x (List.mem_cons_of_mem d hx))]
    have hne : (d :: acc).reverse ++ t ≠ [] := by simp
    have hne2 : acc.reverse ++ d :: t ≠ [] := by simp
    rw [if_neg hne, if_neg hne2]
    simp

theorem pySplit_joinSpace :
    ∀ ws : List Str, (∀ w ∈ ws, w ≠ [] ∧ ∀ x ∈ w, x.isWhitespace = false) →
      pySplit (joinSpace ws) = ws := by
  intro ws
  induction ws with
  | nil => intro _; simp [joinSpace, pySplit, splitGo]
  | cons w rest ih =>
    intro h
    match rest with
    | [] =>
      show pySplit w = [w]
      rw [pySplit, splitGo_nonWs w [] (h w (by simp)).2]
      simp [(h w (by simp)).1]
    | w' :: rest' =>
      show pySplit (w ++ ' ' :: joinSpace (w' :: rest')) = _
      rw [pySplit, split_append (c := ' ') (by decide) w (joinSpace (w' :: rest')) []]
      rw [splitGo_nonWs w [] (h w (by simp)).2]
      rw [show splitGo [] (joinSpace (w' :: rest')) = pySplit (joinSpace (w' :: rest'))
        from rfl]
      rw [ih (fun v hv => h v (List.mem_cons_of_mem w hv))]
      simp [(h w (by simp)).1]

theorem splitGo_words :
    ∀ (l acc : Str) (w : Str), (∀ x ∈ acc, x.isWhitespace = false) →
      w ∈ splitGo acc l → w ≠ [] ∧ ∀ x ∈ w, x.isWhitespace = false := by
  intro l
  induction l with
  | nil =>
    intro acc w hacc hw
    simp only [splitGo] at hw
    by_cases ha : acc = ([] : Str)
    · simp [ha] at hw
    · rw [if_neg ha] at hw
      simp only [List.mem_singleton] at hw
      subst hw
      exact ⟨by simpa using ha, fun x hx => hacc x (List.mem_reverse.mp hx)⟩
  | cons d t ih =>
    intro acc w hacc hw
    by_cases hd : d.isWhitespace
    · simp only [splitGo, hd, if_pos] at hw
      by_cases ha : acc = ([] : Str)
      · rw [if_pos ha] at hw
        exact ih [] w (by simp) hw
      · rw [if_neg ha] at hw
        rcases List.mem_cons.mp hw with h1 | h1
        · subst h1
          exact ⟨by simpa using ha, fun x hx => hacc x (List.mem_reverse.mp hx)⟩
        · exact ih [] w (by simp) h1
    · simp only [splitGo, hd, Bool.false_eq_true, if_neg, not_false_eq_true] at hw
      exact ih (d :: acc) w (by
        intro x hx
        rcases List.mem_cons.mp hx with h1 | h1
        · exact h1 ▸ (by simpa using hd)
        · exact hacc x h1) hw

theorem strip_allSuffix :
    ∀ (l acc : Str), (∀ x ∈ acc, isWordChar x = true) →
      (∀ r ∈ runsGo acc l, isSuffixTok r = true) →
      stripGo acc l = (acc.reverse ++ l).filter (fun x => ! isWordChar x) := by
  intro l
  induction l with
  | nil =>
    intro acc hacc h
    simp only [stripGo, List.append_nil, flushRun]
    have hfilter : acc.reverse.filter (fun x => ! isWordChar x) = [] := by
      rw [List.filter_eq_nil_iff]
      intro x hx
      simp [hacc x (List.mem_reverse.mp hx)]
    by_cases ha : acc = ([] : Str)
    · simp [ha]
    · rw [if_pos (h acc.reverse (by simp [runsGo, ha]))]
      exact hfilter.symm
  | cons d t ih =>
    intro acc hacc h
    by_cases hd : isWordChar d
    · simp only [stripGo, hd, if_pos]
      rw [ih (d :: acc) (by
        intro x hx
        rcases List.mem_cons.mp hx with h1 | h1
        · exact h1 ▸ hd
        · exact hacc x h1) (by simpa [runsGo, hd] using h)]
      simp [List.filter_append, List.filter_cons, hd]
    · simp only [stripGo, hd, Bool.false_eq_true, if_neg, not_false_eq_true]
      have hrest : ∀ r ∈ runsGo [] t, isSuffixTok r = true := by
        intro r hr
        apply h
        by_cases ha : acc = ([] : Str) <;> simp [runsGo, hd, ha, hr]
      rw [ih [] (by simp) hrest]
      have hfilter : acc.reverse.filter (fun x => ! isWordChar x) = [] := by
        rw [List.filter_eq_nil_iff]
        intro x hx
        simp [hacc x (List.mem_reverse.mp hx)]
      simp only [flushRun, List.filter_append, List.filter_cons, hd, hfilter]
      by_cases ha : acc = ([] : Str)
      · simp [ha, isSuffixTok, SUFFIX_TOKENS]
      · rw [if_pos (h acc.reverse (by simp [runsGo, hd, ha]))]
        simp

theorem splitGo_allWs :
    ∀ l : Str, (∀ x ∈ l, x.isWhitespace = true) → splitGo [] l = [] := by
  intro l
  induction l with
  | nil => intro _; simp [splitGo]
  | cons d t ih =>
    intro h
    simp only [splitGo, h d (by simp), if_pos]
    exact ih (fun x hx => h x (List.mem_cons_of_mem d hx))

theorem replDash_idem (c : Char) : replDash (replDash c) = replDash c := by
  by_cases h : c = '-' ∨ c = '_'
  · simp [replDash, h]
  · simp [replDash, h]

theorem map_fix {f : Char → Char} :
    ∀ l : Str, (∀ c ∈ l, f c = c) → l.map f = l := by
  intro l
  induction l with
  | nil => intro _; rfl
  | cons d t ih =>
    intro h
    simp only [List.map_cons, h d (by simp), ih (fun c hc => h c (List.mem_cons_of_mem d hc))]

theorem normalize_chars {x : Str} {c : Char} (h : c ∈ normalize x) :
    pyLower c = c ∧ replDash c = c := by
  have hm : c = ' ' ∨ c ∈ (x.map pyLower).map replDash := by
    rcases mem_joinSpace _ c h with h1 | ⟨w, hw, hcw⟩
    · exact Or.inl h1
    · rcases mem_splitGo _ [] w hw c hcw with h2 | h2
      · simp at h2
      · rcases mem_stripGo _ [] c h2 with h3 | h3
        · simp at h3
        · exact Or.inr h3
  rcases hm with h1 | h1
  · subst h1
    constructor <;> decide
  · rcases List.mem_map.mp h1 with ⟨d, hdmem, hd⟩
    rcases List.mem_map.mp hdmem with ⟨e, _, he⟩
    constructor
    · subst hd
      by_cases h2 : d = '-' ∨ d = '_'
      · simp only [replDash, h2, if_pos]
        decide
      · simp only [replDash, h2, if_neg, not_false_eq_true]
        subst he
        simpa [pyLower] using toLower_idem e
    · rw [← hd, replDash_idem]

theorem wordRuns_normalize (x : Str) :
    wordRuns (normalize x) = wordRuns (stripGo [] ((x.map pyLower).map replDash)) := by
  show wordRuns (joinSpace (pySplit (stripSuffixTokens _))) = _
  rw [joinSpace_runs, stripSuffixTokens]
  have := split_runs (stripGo [] ((x.map pyLower).map replDash)) []
  simpa [pySplit] using this

theorem stripGo_normalize (x : Str) :
    stripGo [] (normalize x) = normalize x := by
  have h := runs_nonsuffix_strip (normalize x) [] (by
    intro r hr
    rw [show runsGo [] (normalize x) = wordRuns (normalize x) from rfl,
      wordRuns_normalize] at hr
    exact strip_runs_nonsuffix ((x.map pyLower).map replDash) [] (by simp) r hr)
  simpa using h

theorem pySplit_normalize (x : Str) :
    pySplit (normalize x) = pySplit (stripSuffixTokens ((x.map pyLower).map replDash)) := by
  show pySplit (joinSpace (pySplit (stripSuffixTokens _))) = _
  apply pySplit_joinSpace
  intro w hw
  exact splitGo_words _ [] w (by simp) hw

theorem normalize_idem (x : Str) : normalize (normalize x) = normalize x := by
  conv_lhs => rw [normalize]
  rw [map_fix (normalize x) (fun c hc => (normalize_chars hc).1),
    map_fix (normalize x) (fun c hc => (normalize_chars hc).2)]
  rw [show stripSuffixTokens (normalize x) = stripGo [] (normalize x) from rfl,
    stripGo_normalize, pySplit_normalize]
  rfl

theorem normalize_suffixOnly (x : Str)
    (h1 : ∀ r ∈ wordRuns ((x.map pyLower).map replDash), isSuffixTok r = true)
    (h2 : ∀ c ∈ (x.map pyLower).map replDash,
      isWordChar c = true ∨ c.isWhitespace = true) :
    normalize x = [] := by
  rw [normalize, show stripSuffixTokens ((x.map pyLower).map replDash)
    = stripGo [] ((x.map pyLower).map replDash) from rfl]
  rw [strip_allSuffix _ [] (by simp) (by simpa [wordRuns] using h1)]
  rw [show pySplit = splitGo [] from rfl]
  rw [splitGo_allWs _ (by
    intro c hc
    simp only [List.reverse_nil, List.nil_append] at hc
    rcases List.mem_filter.mp hc with ⟨hcm, hcf⟩
    rcases h2 c hcm with h3 | h3
    · simp [h3] at hcf
    · exact h3)]
  rfl

/-! ## Lemmas about fractions and the matcher -/

theorem fleB_iff {a b : Frac} (ha : 0 < a.den) (hb : 0 < b.den) :
    fleB a b = true ↔ a.toRat ≤ b.toRat := by
  rw [fleB, Frac.toRat, Frac.toRat, decide_eq_true_iff,
    div_le_div_iff (by exact_mod_cast ha) (by exact_mod_cast hb)]
  exact_mod_cast Iff.rfl

theorem fltB_iff {a b : Frac} (ha : 0 < a.den) (hb : 0 < b.den) :
    fltB a b = true ↔ a.toRat < b.toRat := by
  rw [fltB, Frac.toRat, Frac.toRat, decide_eq_true_iff,
    div_lt_div_iff (by exact_mod_cast ha) (by exact_mod_cast hb)]
  exact_mod_cast Iff.rfl

theorem toRat_nonneg {f : Frac} (hn : 0 ≤ f.num) (hd : 0 < f.den) : 0 ≤ f.toRat :=
  div_nonneg (by exact_mod_cast hn) (by exact_mod_cast hd.le)

theorem ratioF_den_pos (a b : Str) : 0 < (ratioF a b).den := by
  rw [ratioF]
  split
  · exact one_pos
  · rename_i h
    have : 0 < a.length + b.length := Nat.pos_of_ne_zero h
    simp only
    exact_mod_cast this

theorem ratioF_num_nonneg (a b : Str) : 0 ≤ (ratioF a b).num := by
  rw [ratioF]
  split
  · norm_num
  · positivity

theorem pairScore_den_pos (nh na : Str) (p : Str × Str) :
    0 < (pairScore nh na p).den := by
  have h1 := ratioF_den_pos (token_sort nh) (token_sort (normalize p.1))
  have h2 := ratioF_den_pos (token_sort na) (token_sort (normalize p.2))
  simp only [pairScore, fhalf, fadd, token_sort_ratioF]
  positivity

theorem pairScore_num_nonneg (nh na : Str) (p : Str × Str) :
    0 ≤ (pairScore nh na p).num := by
  have h1 := ratioF_den_pos (token_sort nh) (token_sort (normalize p.1))
  have h2 := ratioF_den_pos (token_sort na) (token_sort (normalize p.2))
  have h3 := ratioF_num_nonneg (token_sort nh) (token_sort (normalize p.1))
  have h4 := ratioF_num_nonneg (token_sort na) (token_sort (normalize p.2))
  simp only [pairScore, fhalf, fadd, token_sort_ratioF]
  positivity

theorem pairScore_toRat_nonneg (nh na : Str) (p : Str × Str) :
    0 ≤ (pairScore nh na p).toRat :=
  toRat_nonneg (pairScore_num_nonneg nh na p) (pairScore_den_pos nh na p)

theorem toRat_fadd {a b : Frac} (ha : a.den ≠ 0) (hb : b.den ≠ 0) :
    (fadd a b).toRat = a.toRat + b.toRat := by
  simp only [fadd, Frac.toRat]
  have ha' : (a.den : ℚ) ≠ 0 := by exact_mod_cast ha
  have hb' : (b.den : ℚ) ≠ 0 := by exact_mod_cast hb
  field_simp

theorem toRat_fhalf {a : Frac} (ha : a.den ≠ 0) :
    (fhalf a).toRat = a.toRat / 2 := by
  simp only [fhalf, Frac.toRat]
  have ha' : (a.den : ℚ) ≠ 0 := by exact_mod_cast ha
  field_simp

theorem pairScore_toRat (nh na : Str) (p : Str × Str) :
    (pairScore nh na p).toRat =
      ((token_sort_ratioF nh (normalize p.1)).toRat
        + (token_sort_ratioF na (normalize p.2)).toRat) / 2 := by
  rw [pairScore, toRat_fhalf, toRat_fadd]
  · exact (ratioF_den_pos _ _).ne'
  · exact (ratioF_den_pos _ _).ne'
  · simp only [fadd]
    exact (mul_pos (ratioF_den_pos _ _) (ratioF_den_pos _ _)).ne'

theorem le_foldl_max {α : Type} (f : α → ℚ) :
    ∀ (l : List α) (b : ℚ), b ≤ l.foldl (fun q x => max q (f x)) b := by
  intro l
  induction l with
  | nil => intro b; simp
  | cons x t ih =>
    intro b
    calc b ≤ max b (f x) := le_max_left _ _
    _ ≤ t.foldl (fun q x => max q (f x)) (max b (f x)) := ih _

theorem foldl_max_init {α : Type} (f : α → ℚ) :
    ∀ (l : List α) (b : ℚ), 0 ≤ b → (∀ x ∈ l, 0 ≤ f x) →
      l.foldl (fun q x => max q (f x)) b
        = max b (l.foldl (fun q x => max q (f x)) 0) := by
  intro l
  induction l with
  | nil =>
    intro b hb _
    simp [max_eq_left hb]
  | cons x t ih =>
    intro b hb hf
    have hx : 0 ≤ f x := hf x (by simp)
    simp only [List.foldl_cons]
    rw [ih (max b (f x)) (le_trans hb (le_max_left _ _))
        (fun y hy => hf y (List.mem_cons_of_mem x hy)),
      ih (max 0 (f x)) (le_trans hx (le_max_right _ _))
        (fun y hy => hf y (List.mem_cons_of_mem x hy)),
      max_eq_right hx]
    rw [← max_assoc]

theorem cscoreQ_nonneg (nh na : Str) (r : MatchResult) : 0 ≤ cscoreQ nh na r :=
  le_foldl_max _ _ 0

theorem innerStep_skip {nh na : Str} {r : MatchResult} {st : Frac × Option MatchResult}
    {p : Str × Str} (h : p.1 = [] ∨ p.2 = []) : innerStep nh na r st p = st := by
  simp [innerStep, h]

theorem innerStep_lt {nh na : Str} {r : MatchResult} {st : Frac × Option MatchResult}
    {p : Str × Str} (h : ¬(p.1 = [] ∨ p.2 = []))
    (h2 : fltB st.1 (pairScore nh na p) = true) :
    innerStep nh na r st p = (pairScore nh na p, some r) := by
  simp [innerStep, h, h2]

theorem innerStep_ge {nh na : Str} {r : MatchResult} {st : Frac × Option MatchResult}
    {p : Str × Str} (h : ¬(p.1 = [] ∨ p.2 = []))
    (h2 : ¬ fltB st.1 (pairScore nh na p) = true) :
    innerStep nh na r st p = st := by
  simp [innerStep, h, h2]

set_option maxHeartbeats 1000000 in
theorem foldPairs_spec (nh na : Str) (r : MatchResult) :
    ∀ (ps : List (Str × Str)) (b : Frac) (m : Option MatchResult), 0 < b.den →
      0 < (ps.foldl (innerStep nh na r) (b, m)).1.den
      ∧ (ps.foldl (innerStep nh na r) (b, m)).1.toRat
          = (ps.filter (fun p => ¬(p.1 = [] ∨ p.2 = []))).foldl
              (fun q p => max q (pairScore nh na p).toRat) b.toRat
      ∧ (ps.foldl (innerStep nh na r) (b, m)).2
          = (if b.toRat < (ps.foldl (innerStep nh na r) (b, m)).1.toRat
             then some r else m) := by
  intro ps
  induction ps with
  | nil =>
    intro b m hb
    exact ⟨hb, by simp, by simp⟩
  | cons p t ih =>
    intro b m hb
    by_cases hp : p.1 = [] ∨ p.2 = []
    · obtain ⟨d1, e1, o1⟩ := ih b m hb
      rw [List.foldl_cons, innerStep_skip hp, List.filter_cons,
        if_neg (by simp [hp])]
      exact ⟨d1, e1, o1⟩
    · by_cases hlt : fltB b (pairScore nh na p) = true
      · have hblt : b.toRat < (pairScore nh na p).toRat :=
          (fltB_iff hb (pairScore_den_pos nh na p)).mp hlt
        obtain ⟨d1, e1, o1⟩ := ih (pairScore nh na p) (some r)
          (pairScore_den_pos nh na p)
        rw [List.foldl_cons, innerStep_lt hp hlt, List.filter_cons,
          if_pos (by simp [hp]), List.foldl_cons]
        have hge : (pairScore nh na p).toRat
            ≤ (t.foldl (innerStep nh na r) (pairScore nh na p, some r)).1.toRat := by
          rw [e1]
          exact le_foldl_max _ _ _
        refine ⟨d1, ?_, ?_⟩
        · rw [e1, max_eq_right hblt.le]
        · rw [o1, if_pos (lt_of_lt_of_le hblt hge)]
          split <;> rfl
      · have hnlt : (pairScore nh na p).toRat ≤ b.toRat := by
          by_contra hcon
          exact hlt ((fltB_iff hb (pairScore_den_pos nh na p)).mpr
            (lt_of_not_le hcon))
        obtain ⟨d1, e1, o1⟩ := ih b m hb
        rw [List.foldl_cons, innerStep_ge hp hlt, List.filter_cons,
          if_pos (by simp [hp]), List.foldl_cons]
        rw [max_eq_left hnlt]
        exact ⟨d1, e1, o1⟩

theorem stepResult_spec (nh na : Str) (b : Frac) (m : Option MatchResult)
    (r : MatchResult) (hb : 0 < b.den) (hb0 : 0 ≤ b.toRat) :
    0 < (stepResult nh na (b, m) r).1.den
    ∧ (stepResult nh na (b, m) r).1.toRat = max b.toRat (cscoreQ nh na r)
    ∧ (stepResult nh na (b, m) r).2
        = (if b.toRat < max b.toRat (cscoreQ nh na r) then some r else m) := by
  obtain ⟨d1, e1, o1⟩ := foldPairs_spec nh na r (candPairs r) b m hb
  have e2 : (stepResult nh na (b, m) r).1.toRat = max b.toRat (cscoreQ nh na r) := by
    rw [stepResult, e1, foldl_max_init _ _ b.toRat hb0
      (fun p _ => pairScore_toRat_nonneg nh na p)]
    rfl
  exact ⟨d1, e2, by rw [stepResult, o1, ← stepResult, e2]⟩

theorem foldResults_spec (nh na : Str) :
    ∀ (rs : List MatchResult) (b : Frac) (m : Option MatchResult),
      0 < b.den → 0 ≤ b.toRat →
      0 < (rs.foldl (stepResult nh na) (b, m)).1.den
      ∧ (rs.foldl (stepResult nh na) (b, m)).1.toRat
          = rs.foldl (fun q x => max q (cscoreQ nh na x)) b.toRat
      ∧ (rs.foldl (stepResult nh na) (b, m)).2
          = (if b.toRat < rs.foldl (fun q x => max q (cscoreQ nh na x)) b.toRat
             then rs.find? (fun x => decide (cscoreQ nh na x
               = rs.foldl (fun q y => max q (cscoreQ nh na y)) b.toRat))
             else m) := by
  intro rs
  induction rs with
  | nil =>
    intro b m hb hb0
    exact ⟨hb, by simp, by simp⟩
  | cons r t ih =>
    intro b m hb hb0
    obtain ⟨sd, se, so⟩ := stepResult_spec nh na b m r hb hb0
    have hb'0 : 0 ≤ (stepResult nh na (b, m) r).1.toRat := by
      rw [se]
      exact le_trans hb0 (le_max_left _ _)
    obtain ⟨d1, e1, o1⟩ := ih (stepResult nh na (b, m) r).1
      (stepResult nh na (b, m) r).2 sd hb'0
    have heq : ((stepResult nh na (b, m) r).1, (stepResult nh na (b, m) r).2)
        = stepResult nh na (b, m) r := rfl
    rw [heq] at d1 e1 o1
    have hE1 : max b.toRat (cscoreQ nh na r)
        ≤ t.foldl (fun q x => max q (cscoreQ nh na x)) (max b.toRat (cscoreQ nh na r)) :=
      le_foldl_max _ _ _
    refine ⟨by simpa using d1, ?_, ?_⟩
    · rw [List.foldl_cons, List.foldl_cons, e1, se]
    · rw [List.foldl_cons, List.foldl_cons, o1, se, so]
      set c := cscoreQ nh na r with hcdef
      set E := t.foldl (fun q x => max q (cscoreQ nh na x)) (max b.toRat c) with hEdef
      by_cases hc : max b.toRat c < E
      · have hbE : b.toRat < E := lt_of_le_of_lt (le_max_left _ _) hc
        rw [if_pos hc, if_pos hbE, List.find?_cons_of_neg]
        simp only [decide_eq_true_eq, hcdef]
        exact ne_of_lt (lt_of_le_of_lt (le_max_right b.toRat c) hc)
      · have hEe : E = max b.toRat c := le_antisymm (not_lt.mp hc) hE1
        rw [if_neg hc]
        by_cases hbc : b.toRat < max b.toRat c
        · have hmax : max b.toRat c = c := by
            rcases max_choice b.toRat c with h | h
            · rw [h] at hbc
              exact absurd hbc (lt_irrefl _)
            · exact h
          rw [if_pos hbc, if_pos (show b.toRat < E by rw [hEe]; exact hbc),
            List.find?_cons_of_pos]
          simp only [decide_eq_true_eq, hcdef]
          rw [hEe, hmax]
        · have hmax : max b.toRat c = b.toRat :=
            le_antisymm (not_lt.mp hbc) (le_max_left _ _)
          rw [if_neg hbc, if_neg (show ¬ b.toRat < E by rw [hEe, hmax]; exact lt_irrefl _)]

theorem toRat_zero : (Frac.mk 0 1).toRat = 0 := by
  simp [Frac.toRat]

theorem find_result_eq (ph pa : Str) (rs : List MatchResult) :
    find_result ph pa rs =
      if 80 ≤ bestScoreQ (normalize ph) (normalize pa) rs then
        rs.find? (fun x => decide (cscoreQ (normalize ph) (normalize pa) x
          = bestScoreQ (normalize ph) (normalize pa) rs))
      else none := by
  obtain ⟨hd, hfst, hsnd⟩ := foldResults_spec (normalize ph) (normalize pa) rs
    ⟨0, 1⟩ none (by norm_num) (by rw [toRat_zero])
  rw [toRat_zero] at hfst hsnd
  have hB : rs.foldl (fun q x => max q (cscoreQ (normalize ph) (normalize pa) x)) 0
      = bestScoreQ (normalize ph) (normalize pa) rs := rfl
  rw [hB] at hfst hsnd
  have h80 : fleB FUZZY_THRESHOLD
        (rs.foldl (stepResult (normalize ph) (normalize pa)) (⟨0, 1⟩, none)).1 = true
      ↔ (80 : ℚ) ≤ bestScoreQ (normalize ph) (normalize pa) rs := by
    rw [fleB_iff (by norm_num [FUZZY_THRESHOLD]) hd, hfst]
    have : (FUZZY_THRESHOLD).toRat = (80 : ℚ) := by norm_num [FUZZY_THRESHOLD, Frac.toRat]
    rw [this]
  show (if fleB FUZZY_THRESHOLD
      (rs.foldl (stepResult (normalize ph) (normalize pa)) (⟨0, 1⟩, none)).1 = true
    then (rs.foldl (stepResult (normalize ph) (normalize pa)) (⟨0, 1⟩, none)).2
    else none) = _
  by_cases hcase : (80 : ℚ) ≤ bestScoreQ (normalize ph) (normalize pa) rs
  · rw [if_pos (h80.mpr hcase), if_pos hcase, hsnd,
      if_pos (lt_of_lt_of_le (by norm_num) hcase)]
  · rw [if_neg (fun hcon => hcase (h80.mp hcon)), if_neg hcase]

theorem find_result_mem {ph pa : Str} {rs : List MatchResult} {m : MatchResult}
    (h : find_result ph pa rs = some m) : m ∈ rs := by
  rw [find_result_eq] at h
  split at h
  · exact List.mem_of_find?_eq_some h
  · cases h

/-! ## Lemmas about the scorer -/

theorem parse_result_vocab (raw : List RawMatch) :
    ∀ m ∈ (parse_matches raw).1,
      m.result = none ∨ m.result = some ("1".toList)
        ∨ m.result = some ("X".toList) ∨ m.result = some ("2".toList) := by
  intro m hm
  rcases List.mem_filterMap.mp hm with ⟨a, _, ha⟩
  rw [parseOne] at ha
  split at ha
  · have hr : m.result = deriveResult a := by
      cases ha
      rfl
    have hvoc : WINNER_MAP a.winner = none
        ∨ WINNER_MAP a.winner = some ("1".toList)
        ∨ WINNER_MAP a.winner = some ("X".toList)
        ∨ WINNER_MAP a.winner = some ("2".toList) := by
      rcases a.winner with _ | w
      · simp [WINNER_MAP]
      · simp only [WINNER_MAP]
        split_ifs <;> simp
    rw [hr, deriveResult]
    rcases hvoc with hw | hw | hw | hw <;> rw [hw]
    · cases hh : a.ft_home with
      | none => simp
      | some hs =>
        cases hha : a.ft_away with
        | none => simp
        | some as' =>
          simp only
          split_ifs <;> simp
    · simp
    · simp
    · simp
  · cases ha

theorem verdict_unmatched {results : List MatchResult} {p : Prediction}
    (h : find_result p.home_team p.away_team results = none) :
    verdict results p = ("UNMATCHED".toList, "UNMATCHED".toList) := by
  rw [verdict, h]

theorem verdict_unknown {results : List MatchResult} {p : Prediction}
    {m : MatchResult} (h : find_result p.home_team p.away_team results = some m)
    (hr : m.result = none ∨ m.result = some []) :
    verdict results p = ("?".toList, "UNMATCHED".toList) := by
  rw [verdict, h]
  rcases hr with hr | hr <;> simp [hr]

theorem verdict_known {results : List MatchResult} {p : Prediction}
    {m : MatchResult} {rv : Str}
    (h : find_result p.home_team p.away_team results = some m)
    (hr : m.result = some rv) (hne : rv ≠ []) (hq : rv ≠ "?".toList) :
    verdict results p
      = (rv, if p.prediction = rv then "Y".toList else "N".toList) := by
  rw [verdict, h]
  simp only [hr, if_neg hne, if_neg hq]

theorem scoreSite_go (results : List MatchResult) (site : Str) :
    ∀ (preds : List Prediction) (ds : List Detail) (s : SiteSummary),
      preds.foldl (scoreStep results site) (ds, s)
      = (ds ++ preds.map (mkDetail results site),
         ⟨s.total + preds.countP
            (fun p => ¬(verdict results p).2 = "UNMATCHED".toList),
          s.correct + preds.countP (fun p => (verdict results p).2 = "Y".toList),
          s.unmatched + preds.countP
            (fun p => (verdict results p).2 = "UNMATCHED".toList)⟩) := by
  intro preds
  induction preds with
  | nil =>
    intro ds s
    simp
  | cons p t ih =>
    intro ds s
    rw [List.foldl_cons]
    by_cases hu : (verdict results p).2 = "UNMATCHED".toList
    · have hy : ¬ (verdict results p).2 = "Y".toList := by
        rw [hu]
        decide
      have hstep : scoreStep results site (ds, s) p
          = (ds ++ [mkDetail results site p],
             ⟨s.total, s.correct, s.unmatched + 1⟩) := by
        simp [scoreStep, hu, mkDetail]
      rw [hstep, ih,
        List.countP_cons_of_neg
          (fun p => decide ¬((verdict results p).2 = "UNMATCHED".toList)) t
          (by simp [hu]),
        List.countP_cons_of_neg
          (fun p => decide ((verdict results p).2 = "Y".toList)) t
          (by simpa using hy),
        List.countP_cons_of_pos
          (fun p => decide ((verdict results p).2 = "UNMATCHED".toList)) t
          (by simp [hu])]
      rw [Prod.mk.injEq]
      refine ⟨by simp, ?_⟩
      rw [SiteSummary.mk.injEq]
      refine ⟨rfl, rfl, ?_⟩
      show s.unmatched + 1 + _ = s.unmatched + (_ + 1)
      omega
    · have hstep : scoreStep results site (ds, s) p
          = (ds ++ [mkDetail results site p],
             ⟨s.total + 1,
              s.correct + (if (verdict results p).2 = "Y".toList then 1 else 0),
              s.unmatched⟩) := by
        simp only [scoreStep]
        rw [if_neg hu]
        rfl
      rw [hstep, ih,
        List.countP_cons_of_pos
          (fun p => decide ¬((verdict results p).2 = "UNMATCHED".toList)) t
          (by simpa using hu),
        List.countP_cons_of_neg
          (fun p => decide ((verdict results p).2 = "UNMATCHED".toList)) t
          (by simpa using hu)]
      rw [Prod.mk.injEq]
      refine ⟨by simp, ?_⟩
      rw [SiteSummary.mk.injEq]
      by_cases hy : (verdict results p).2 = "Y".toList
      · rw [List.countP_cons_of_pos
          (fun p => decide ((verdict results p).2 = "Y".toList)) t
          (by simpa using hy)]
        refine ⟨?_, ?_, rfl⟩
        · show s.total + 1 + _ = s.total + (_ + 1)
          omega
        · show s.correct + (if (verdict results p).2 = "Y".toList then 1 else 0) + _
            = s.correct + (_ + 1)
          rw [if_pos hy]
          omega
      · rw [List.countP_cons_of_neg
          (fun p => decide ((verdict results p).2 = "Y".toList)) t
          (by simpa using hy)]
        refine ⟨?_, ?_, rfl⟩
        · show s.total + 1 + _ = s.total + (_ + 1)
          omega
        · show s.correct + (if (verdict results p).2 = "Y".toList then 1 else 0) + _
            = s.correct + _
          rw [if_neg hy]
          omega

theorem countP_compl {α : Type} (q : α → Bool) :
    ∀ l : List α, l.countP q + l.countP (fun a => ! q a) = l.length := by
  intro l
  induction l with
  | nil => simp
  | cons a t ih =>
    simp only [List.countP_cons, List.length_cons]
    cases h : q a <;> simp [h] <;> omega

theorem countP_imp_le {α : Type} {q r : α → Bool}
    (h : ∀ a, q a = true → r a = true) :
    ∀ l : List α, l.countP q ≤ l.countP r := by
  intro l
  induction l with
  | nil => simp
  | cons a t ih =>
    simp only [List.countP_cons]
    cases hq : q a
    · cases hr : r a <;> simp <;> omega
    · rw [h a hq]
      simp
      omega

theorem scoreSite_details (results : List MatchResult) (site : Str)
    (preds : List Prediction) :
    (scoreSite results site preds).1 = preds.map (mkDetail results site) := by
  rw [scoreSite, scoreSite_go]
  simp

theorem scoreSite_summary (results : List MatchResult) (site : Str)
    (preds : List Prediction) :
    (scoreSite results site preds).2
      = ⟨preds.countP (fun p => ¬(verdict results p).2 = "UNMATCHED".toList),
         preds.countP (fun p => (verdict results p).2 = "Y".toList),
         preds.countP (fun p => (verdict results p).2 = "UNMATCHED".toList)⟩ := by
  rw [scoreSite, scoreSite_go]
  simp

/-! ## Lemmas about the aggregator -/

theorem siteCells_go (cnt : Str × Str → Nat × Nat) (site : Str) :
    ∀ (dates : List Str) (cells : List (Option ℤ)) (nums : List Frac),
      dates.foldl (siteRowStep cnt site) (cells, nums)
      = (cells ++ dates.map (fun d => if 0 < (cnt (d, site)).1
            then some (rheF (pctF (cnt (d, site)))) else none),
         nums ++ (dates.filter (fun d => 0 < (cnt (d, site)).1)).map
            (fun d => pctF (cnt (d, site)))) := by
  intro dates
  induction dates with
  | nil =>
    intro cells nums
    simp
  | cons d t ih =>
    intro cells nums
    rw [List.foldl_cons]
    by_cases hc : 0 < (cnt (d, site)).1
    · rw [show siteRowStep cnt site (cells, nums) d
          = (cells ++ [some (rheF (pctF (cnt (d, site))))],
             nums ++ [pctF (cnt (d, site))]) by
        simp only [siteRowStep]
        rw [if_pos hc]]
      rw [ih, List.filter_cons, if_pos (by simpa using hc), List.map_cons,
        if_pos hc, List.map_cons]
      simp
    · rw [show siteRowStep cnt site (cells, nums) d = (cells ++ [none], nums) by
        simp only [siteRowStep]
        rw [if_neg hc]]
      rw [ih, List.filter_cons, if_neg (by simpa using hc), List.map_cons,
        if_neg hc]
      simp

theorem pctF_den_pos {c : Nat × Nat} (h : 0 < c.1) : 0 < (pctF c).den := by
  simp only [pctF]
  exact_mod_cast h

theorem pctF_num_nonneg (c : Nat × Nat) : 0 ≤ (pctF c).num := by
  simp only [pctF]
  positivity

theorem pctF_toRat (c : Nat × Nat) :
    (pctF c).toRat = (c.2 : ℚ) / (c.1 : ℚ) * 100 := by
  simp only [pctF, Frac.toRat]
  push_cast
  ring

theorem rheF_nonneg {f : Frac} (hn : 0 ≤ f.num) (hd : 0 < f.den) : 0 ≤ rheF f := by
  have hq : 0 ≤ f.num.ediv f.den := Int.ediv_nonneg hn hd.le
  simp only [rheF]
  split_ifs <;> omega

theorem rheF_close {f : Frac} (hd : 0 < f.den) :
    |((rheF f : ℤ) : ℚ) - f.toRat| ≤ 1 / 2 := by
  have hmod := Int.ediv_add_emod f.num f.den
  have h0 : 0 ≤ f.num.emod f.den := Int.emod_nonneg f.num hd.ne'
  have h1 : f.num.emod f.den < f.den := Int.emod_lt_of_pos f.num hd
  have hde : (0 : ℚ) < (f.den : ℚ) := by exact_mod_cast hd
  have hkey : f.num - f.num.ediv f.den * f.den = f.num.emod f.den := by
    linear_combination -hmod
  have htr : f.toRat
      = (f.num.ediv f.den : ℚ) + (f.num.emod f.den : ℚ) / (f.den : ℚ) := by
    rw [Frac.toRat,
      show (f.num : ℚ)
        = (f.den : ℚ) * (f.num.ediv f.den : ℚ) + (f.num.emod f.den : ℚ) by
          exact_mod_cast hmod.symm]
    field_simp
    ring
  have hfrac0 : 0 ≤ (f.num.emod f.den : ℚ) / (f.den : ℚ) :=
    div_nonneg (by exact_mod_cast h0) hde.le
  simp only [rheF, hkey]
  split_ifs with hc1 hc2 hc3
  · have hhalf : (f.num.emod f.den : ℚ) / (f.den : ℚ) ≤ 1 / 2 := by
      rw [div_le_iff hde]
      have h2 : (2 : ℚ) * (f.num.emod f.den : ℚ) ≤ (f.den : ℚ) := by
        exact_mod_cast hc1.le
      linarith
    rw [abs_le]
    constructor <;> rw [htr] <;> push_cast <;> linarith
  · have hhalf : 1 / 2 ≤ (f.num.emod f.den : ℚ) / (f.den : ℚ) := by
      rw [le_div_iff hde]
      have h2 : (f.den : ℚ) ≤ (2 : ℚ) * (f.num.emod f.den : ℚ) := by
        exact_mod_cast hc2.le
      linarith
    have hfrac1 : (f.num.emod f.den : ℚ) / (f.den : ℚ) < 1 := by
      rw [div_lt_one hde]
      exact_mod_cast h1
    rw [abs_le]
    constructor <;> rw [htr] <;> push_cast <;> linarith
  · have heq2 : 2 * f.num.emod f.den = f.den :=
      le_antisymm (not_lt.mp hc2) (not_lt.mp hc1)
    have hhalf : (f.num.emod f.den : ℚ) / (f.den : ℚ) = 1 / 2 := by
      rw [div_eq_iff hde.ne']
      have h2 : (2 : ℚ) * (f.num.emod f.den : ℚ) = (f.den : ℚ) := by
        exact_mod_cast heq2
      linarith
    rw [abs_le]
    constructor <;> rw [htr] <;> push_cast <;> linarith
  · have heq2 : 2 * f.num.emod f.den = f.den :=
      le_antisymm (not_lt.mp hc2) (not_lt.mp hc1)
    have hhalf : (f.num.emod f.den : ℚ) / (f.den : ℚ) = 1 / 2 := by
      rw [div_eq_iff hde.ne']
      have h2 : (2 : ℚ) * (f.num.emod f.den : ℚ) = (f.den : ℚ) := by
        exact_mod_cast heq2
      linarith
    rw [abs_le]
    constructor <;> rw [htr] <;> push_cast <;> linarith

theorem fsum_go :
    ∀ (l : List Frac) (acc : Frac), 0 < acc.den → (∀ f ∈ l, 0 < f.den) →
      0 < (l.foldl fadd acc).den
      ∧ (l.foldl fadd acc).toRat = acc.toRat + (l.map Frac.toRat).sum
      ∧ (0 ≤ acc.num → (∀ f ∈ l, 0 ≤ f.num) → 0 ≤ (l.foldl fadd acc).num) := by
  intro l
  induction l with
  | nil =>
    intro acc ha _
    exact ⟨ha, by simp, fun h _ => h⟩
  | cons f t ih =>
    intro acc ha hl
    have hf : 0 < f.den := hl f (by simp)
    have hd : 0 < (fadd acc f).den := by
      simp only [fadd]
      positivity
    obtain ⟨d1, e1, n1⟩ := ih (fadd acc f) hd
      (fun g hg => hl g (List.mem_cons_of_mem f hg))
    refine ⟨by simpa using d1, ?_, ?_⟩
    · rw [List.foldl_cons, e1, toRat_fadd ha.ne' hf.ne']
      simp [add_assoc]
    · intro hacc hnum
      rw [List.foldl_cons]
      refine n1 ?_ (fun g hg => hnum g (List.mem_cons_of_mem f hg))
      simp only [fadd]
      have := hnum f (by simp)
      positivity

theorem toRat_fdivNat {f : Frac} {n : Nat} (hd : (f.den : ℚ) ≠ 0) (hn : n ≠ 0) :
    (fdivNat f n).toRat = f.toRat / (n : ℚ) := by
  have hn' : ((n : ℤ) : ℚ) ≠ 0 := by exact_mod_cast hn
  simp only [fdivNat, Frac.toRat]
  push_cast
  field_simp

theorem sortKeyF_den_pos (r : LBRow) : 0 < (sortKeyF r).den := by
  cases h : r.avg <;> simp [sortKeyF, h]

instance : IsTotal LBRow (fun x y => fleB (sortKeyF y) (sortKeyF x) = true) where
  total a b := by
    rcases le_total ((sortKeyF b).num * (sortKeyF a).den)
      ((sortKeyF a).num * (sortKeyF b).den) with h | h
    · exact Or.inl (by simpa [fleB] using h)
    · exact Or.inr (by simpa [fleB] using h)

instance : IsTrans LBRow (fun x y => fleB (sortKeyF y) (sortKeyF x) = true) where
  trans a b c hab hbc := by
    have h1 := (fleB_iff (sortKeyF_den_pos b) (sortKeyF_den_pos a)).mp hab
    have h2 := (fleB_iff (sortKeyF_den_pos c) (sortKeyF_den_pos b)).mp hbc
    exact (fleB_iff (sortKeyF_den_pos c) (sortKeyF_den_pos a)).mpr (le_trans h2 h1)

/-! ## The claims -/

/-- C1: a prediction matched to a result that was parsed from a finished raw
match with no usable winner indicator but both full-time scores present is
scored against the outcome derived by numeric score comparison
(`home > away → "1"`, equal → `"X"`, `home < away → "2"`), and the verdict
compares the predicted call against that outcome. -/
theorem C1_derived_outcome (raw : RawMatch) (mr : MatchResult) (p : Prediction)
    (results : List MatchResult) (hs as' : Int)
    (h1 : parseOne raw = some mr)
    (h2 : WINNER_MAP raw.winner = none)
    (h3 : raw.ft_home = some hs) (h4 : raw.ft_away = some as')
    (h5 : find_result p.home_team p.away_team results = some mr) :
    verdict results p
      = (if hs > as' then "1".toList else if hs = as' then "X".toList
           else "2".toList,
         if p.prediction = (if hs > as' then "1".toList
             else if hs = as' then "X".toList else "2".toList)
         then "Y".toList else "N".toList) := by
  have hr : mr.result = deriveResult raw := by
    rw [parseOne] at h1
    split at h1
    · cases h1
      rfl
    · cases h1
  rw [deriveResult, h2, h3, h4] at hr
  exact verdict_known h5 hr (by split_ifs <;> decide) (by split_ifs <;> decide)

/-- Witness for C1: the Arsenal–Chelsea end-to-end example of the claim,
with winner unset and full-time score 2–1, yields observed `"1"` (HOME) and
status `"Y"` (CORRECT). -/
theorem C1_witness :
    parseOne rawArsenal = some mrArsenal
    ∧ find_result pArsenal.home_team pArsenal.away_team [mrArsenal]
        = some mrArsenal
    ∧ verdict [mrArsenal] pArsenal = ("1".toList, "Y".toList) := by
  refine ⟨by decide, by decide, ?_⟩
  have h := C1_derived_outcome rawArsenal mrArsenal pArsenal [mrArsenal] 2 1
    (by decide) (by decide) (by decide) (by decide) (by decide)
  simpa using h

/-- C2: the matcher computes, for each candidate and each usable name-variant
pair, the arithmetic mean of the two token-sort similarities of the
normalized names, keeps the single highest combined score (first candidate on
exact ties), and returns that candidate exactly when the best combined score
reaches the threshold 80; otherwise it returns none. -/
theorem C2_matcher_spec (ph pa : Str) (rs : List MatchResult) :
    find_result ph pa rs
      = (if 80 ≤ bestScoreQ (normalize ph) (normalize pa) rs then
          rs.find? (fun x => decide (cscoreQ (normalize ph) (normalize pa) x
            = bestScoreQ (normalize ph) (normalize pa) rs))
        else none)
    ∧ ∀ p : Str × Str, (pairScore (normalize ph) (normalize pa) p).toRat
        = ((token_sort_ratioF (normalize ph) (normalize p.1)).toRat
            + (token_sort_ratioF (normalize pa) (normalize p.2)).toRat) / 2 :=
  ⟨find_result_eq ph pa rs, fun p => pairScore_toRat _ _ p⟩

/-- C3 counterexample: a prediction matched to a result with a null stored
result produces a detail row whose `result` field is `"?"`, which is not one
of `"1"`, `"X"`, `"2"`, `"UNMATCHED"`. -/
theorem C3_counterexample :
    (runScores predsForebet [mrUnknown]).details.map (fun d => d.result)
        = ["?".toList]
    ∧ ¬("?".toList = "1".toList ∨ "?".toList = "X".toList
        ∨ "?".toList = "2".toList ∨ "?".toList = "UNMATCHED".toList) :=
  ⟨by decide, by decide⟩

/-- C3 (amended): when scoring against a results list produced by
`parse_matches`, every detail row has `result` in
`{"1", "X", "2", "UNMATCHED", "?"}` (`"?"` for a matched result with no
derivable outcome) and `correct` in `{"Y", "N", "UNMATCHED"}`. -/
theorem C3_details_vocabulary (raw : List RawMatch) (preds : Str → List Prediction) :
    ∀ d ∈ (runScores preds (parse_matches raw).1).details,
      (d.result = "1".toList ∨ d.result = "X".toList ∨ d.result = "2".toList
        ∨ d.result = "UNMATCHED".toList ∨ d.result = "?".toList)
      ∧ (d.correct = "Y".toList ∨ d.correct = "N".toList
        ∨ d.correct = "UNMATCHED".toList) := by
  intro d hd
  simp only [runScores, List.mem_flatten, List.mem_map] at hd
  rcases hd with ⟨l, ⟨x, ⟨site, _, hx⟩, hl⟩, hdl⟩
  subst hx
  subst hl
  simp only at hdl
  rw [scoreSite_details] at hdl
  rcases List.mem_map.mp hdl with ⟨p, _, hp⟩
  have hres : d.result = (verdict (parse_matches raw).1 p).1 := by
    rw [← hp]
    rfl
  have hcor : d.correct = (verdict (parse_matches raw).1 p).2 := by
    rw [← hp]
    rfl
  rcases hf : find_result p.home_team p.away_team (parse_matches raw).1 with _ | m
  · rw [verdict_unmatched hf] at hres hcor
    exact ⟨by simp [hres], by simp [hcor]⟩
  · rcases parse_result_vocab raw m (find_result_mem hf) with hm | hm | hm | hm
    · rw [verdict_unknown hf (Or.inl hm)] at hres hcor
      exact ⟨by simp [hres], by simp [hcor]⟩
    all_goals {
      rw [verdict_known hf hm (by decide) (by decide)] at hres hcor
      refine ⟨by simp [hres], ?_⟩
      rw [hcor]
      split_ifs <;> simp
    }

/-- Witness for C3: the end-to-end example produces the detail row
`(forebet, Arsenal, Chelsea, "1", "1", "Y")`, whose fields lie in the
amended vocabularies. -/
theorem C3_witness :
    (dArsenal.result = "1".toList ∨ dArsenal.result = "X".toList
      ∨ dArsenal.result = "2".toList ∨ dArsenal.result = "UNMATCHED".toList
      ∨ dArsenal.result = "?".toList)
    ∧ (dArsenal.correct = "Y".toList ∨ dArsenal.correct = "N".toList
      ∨ dArsenal.correct = "UNMATCHED".toList) :=
  C3_details_vocabulary [rawArsenal] predsForebet dArsenal (by decide)

/-- C4 counterexample: for a prediction matched to a result with unknown
outcome the code sets status `"UNMATCHED"` but observed `"?"` — not
`"UNMATCHED"` as the claim states. -/
theorem C4_counterexample :
    find_result pArsenal.home_team pArsenal.away_team [mrUnknown]
        = some mrUnknown
    ∧ (verdict [mrUnknown] pArsenal).2 = "UNMATCHED".toList
    ∧ ¬ (verdict [mrUnknown] pArsenal).1 = "UNMATCHED".toList :=
  ⟨by decide, by decide, by decide⟩

/-- C4 (amended): no match gives status and observed `"UNMATCHED"`; a match
with unknown outcome (null or empty stored result) gives status
`"UNMATCHED"` and observed the sentinel `"?"` (not penalized); a match with
a known outcome gives status `"Y"` iff the call equals the outcome, else
`"N"`, with observed the outcome. -/
theorem C4_verdict_cases (results : List MatchResult) (p : Prediction) :
    (find_result p.home_team p.away_team results = none →
      verdict results p = ("UNMATCHED".toList, "UNMATCHED".toList))
    ∧ (∀ m, find_result p.home_team p.away_team results = some m →
        (m.result = none ∨ m.result = some []) →
        verdict results p = ("?".toList, "UNMATCHED".toList))
    ∧ (∀ m rv, find_result p.home_team p.away_team results = some m →
        m.result = some rv → rv ≠ [] → rv ≠ "?".toList →
        verdict results p
          = (rv, if p.prediction = rv then "Y".toList else "N".toList)) :=
  ⟨fun h => verdict_unmatched h,
   fun _ h hr => verdict_unknown h hr,
   fun _ _ h hr h1 h2 => verdict_known h hr h1 h2⟩

/-- Witness for C4: the three cases at concrete inputs. -/
theorem C4_witness :
    verdict [] pArsenal = ("UNMATCHED".toList, "UNMATCHED".toList)
    ∧ verdict [mrUnknown] pArsenal = ("?".toList, "UNMATCHED".toList)
    ∧ verdict [mrArsenal] pArsenal
        = ("1".toList,
           if pArsenal.prediction = "1".toList then "Y".toList else "N".toList) :=
  ⟨(C4_verdict_cases [] pArsenal).1 (by decide),
   (C4_verdict_cases [mrUnknown] pArsenal).2.1 mrUnknown (by decide)
     (Or.inl (by decide)),
   (C4_verdict_cases [mrArsenal] pArsenal).2.2 mrArsenal ("1".toList)
     (by decide) (by decide) (by decide) (by decide)⟩

/-- C5: `normalize` is idempotent; it equates `"Inter-Milan FC"` with
`"inter milan"`; it lowercases, turns hyphens into spaces, removes every
suffix token as a standalone word but never as a substring of a longer word,
and collapses/trims whitespace. -/
theorem C5_normalize_spec :
    (∀ x : Str, normalize (normalize x) = normalize x)
    ∧ normalize "Inter-Milan FC".toList = normalize "inter milan".toList
    ∧ normalize "Inter-Milan FC".toList = "inter milan".toList
    ∧ SUFFIX_TOKENS.map (fun t => normalize ('x' :: ' ' :: t))
        = List.replicate SUFFIX_TOKENS.length ['x']
    ∧ normalize "xfc".toList = "xfc".toList
    ∧ normalize "  FC   Internazionale  ".toList = "internazionale".toList :=
  ⟨normalize_idem, by decide, by decide, by decide, by decide, by decide⟩

/-- C6: each per-source summary satisfies `total + unmatched = #predictions`
and `correct ≤ total`; `total` counts exactly the non-UNMATCHED detail rows,
`unmatched` exactly the UNMATCHED ones, and `correct` exactly the `"Y"`
ones, so an UNMATCHED verdict never increments `total` or `correct`. -/
theorem C6_summary_invariants (results : List MatchResult)
    (preds : Str → List Prediction) (site : Str) :
    (runScores preds results).summary
        = SITES.map (fun s => (s, (scoreSite results s (preds s)).2))
    ∧ (scoreSite results site (preds site)).2.total
        + (scoreSite results site (preds site)).2.unmatched
        = (preds site).length
    ∧ (scoreSite results site (preds site)).2.correct
        ≤ (scoreSite results site (preds site)).2.total
    ∧ (scoreSite results site (preds site)).2.total
        = ((scoreSite results site (preds site)).1.filter
            (fun d => ¬ d.correct = "UNMATCHED".toList)).length
    ∧ (scoreSite results site (preds site)).2.unmatched
        = ((scoreSite results site (preds site)).1.filter
            (fun d => d.correct = "UNMATCHED".toList)).length
    ∧ (scoreSite results site (preds site)).2.correct
        = ((scoreSite results site (preds site)).1.filter
            (fun d => d.correct = "Y".toList)).length := by
  refine ⟨by simp [runScores, List.map_map], ?_, ?_, ?_, ?_, ?_⟩
  · rw [scoreSite_summary]
    have h := countP_compl
      (fun p => decide ((verdict results p).2 = "UNMATCHED".toList)) (preds site)
    simp only [decide_not] at *
    omega
  · rw [scoreSite_summary]
    refine countP_imp_le (fun p hp => ?_) (preds site)
    simp only [decide_eq_true_eq] at hp
    simp only [hp, decide_not]
    decide
  · rw [scoreSite_summary, scoreSite_details, List.filter_map,
      List.length_map, ← List.countP_eq_length_filter]
    rfl
  · rw [scoreSite_summary, scoreSite_details, List.filter_map,
      List.length_map, ← List.countP_eq_length_filter]
    rfl
  · rw [scoreSite_summary, scoreSite_details, List.filter_map,
      List.length_map, ← List.countP_eq_length_filter]
    rfl

/-- C7: in the rebuilt leaderboard, a date with zero scoreable predictions
for a source contributes the `"—"` cell and is excluded from the source's
average; a date with data contributes `correct/total × 100`, displayed
rounded to the nearest whole percent (half to even) and kept at full
precision for averaging; the average is the mean of exactly the available
daily percentages, and a source with no available day gets `"—"`. -/
theorem C7_leaderboard_row (rows : List Row) (site : Str) :
    (siteRow (countersOf rows) (sortedDatesOf rows) site).dayCells
        = (sortedDatesOf rows).map (fun d =>
            if 0 < (countersOf rows (d, site)).1
            then some (rheF (pctF (countersOf rows (d, site)))) else none)
    ∧ (siteRow (countersOf rows) (sortedDatesOf rows) site).numericPcts
        = ((sortedDatesOf rows).filter
            (fun d => 0 < (countersOf rows (d, site)).1)).map
            (fun d => pctF (countersOf rows (d, site)))
    ∧ (∀ d : Str, 0 < (countersOf rows (d, site)).1 →
        (pctF (countersOf rows (d, site))).toRat
            = ((countersOf rows (d, site)).2 : ℚ)
                / ((countersOf rows (d, site)).1 : ℚ) * 100
        ∧ |((rheF (pctF (countersOf rows (d, site))) : ℤ) : ℚ)
            - (pctF (countersOf rows (d, site))).toRat| ≤ 1 / 2)
    ∧ ((siteRow (countersOf rows) (sortedDatesOf rows) site).numericPcts = []
        → (siteRow (countersOf rows) (sortedDatesOf rows) site).avg = none)
    ∧ (∀ f, (siteRow (countersOf rows) (sortedDatesOf rows) site).avg = some f
        → (siteRow (countersOf rows) (sortedDatesOf rows) site).numericPcts ≠ []
          ∧ f.toRat = (((siteRow (countersOf rows) (sortedDatesOf rows)
                site).numericPcts.map Frac.toRat).sum)
              / (((siteRow (countersOf rows) (sortedDatesOf rows)
                site).numericPcts.length : ℚ)))
    ∧ (site ∈ SITES → siteRow (countersOf rows) (sortedDatesOf rows) site
        ∈ (rebuild_leaderboard rows).2) := by
  have hcells := siteCells_go (countersOf rows) site (sortedDatesOf rows) [] []
  have hpden : ∀ f ∈ (siteRow (countersOf rows) (sortedDatesOf rows)
      site).numericPcts, 0 < f.den := by
    intro f hf
    simp only [siteRow, hcells, List.nil_append] at hf
    rcases List.mem_map.mp hf with ⟨d, hd, hfd⟩
    rcases List.mem_filter.mp hd with ⟨_, hd2⟩
    rw [← hfd]
    exact pctF_den_pos (by simpa using hd2)
  refine ⟨?_, ?_, ?_, ?_, ?_, ?_⟩
  · simp only [siteRow, hcells, List.nil_append]
  · simp only [siteRow, hcells, List.nil_append]
  · intro d hd
    exact ⟨pctF_toRat _, rheF_close (pctF_den_pos hd)⟩
  · intro hnil
    simp only [siteRow, hcells, List.nil_append] at hnil ⊢
    rw [if_pos hnil]
  · intro f hf
    simp only [siteRow, hcells, List.nil_append] at hf ⊢
    by_cases hnil : ((sortedDatesOf rows).filter
        (fun d => 0 < (countersOf rows (d, site)).1)).map
        (fun d => pctF (countersOf rows (d, site))) = []
    · rw [if_pos hnil] at hf
      cases hf
    · rw [if_neg hnil] at hf
      refine ⟨hnil, ?_⟩
      cases hf
      have hd : ∀ g ∈ ((sortedDatesOf rows).filter
          (fun d => 0 < (countersOf rows (d, site)).1)).map
          (fun d => pctF (countersOf rows (d, site))), 0 < g.den := by
        simpa only [siteRow, hcells, List.nil_append] using hpden
      obtain ⟨hsd, hse, _⟩ := fsum_go _ (Frac.mk 0 1) (by norm_num) hd
      have hsd2 : 0 < (fsum (((sortedDatesOf rows).filter
          (fun d => 0 < (countersOf rows (d, site)).1)).map
          (fun d => pctF (countersOf rows (d, site))))).den := by
        rw [fsum]
        exact hsd
      rw [toRat_fdivNat (by exact_mod_cast hsd2.ne') (by
          intro hcon
          exact hnil (List.length_eq_zero.mp hcon))]
      congr 1
      rw [fsum, hse, toRat_zero, zero_add]
  · intro hsite
    rw [rebuild_leaderboard]
    simp only
    rw [List.mem_insertionSort]
    exact List.mem_map.mpr ⟨site, hsite, rfl⟩

/-- Witness for C7: on the one-day sheet `rowsW`, forebet's displayed cell
is within half a percent of the exact percentage, and its row appears in
the rebuilt leaderboard. -/
theorem C7_witness :
    |((rheF (pctF (countersOf rowsW
        ("2026-02-25".toList, "forebet".toList))) : ℤ) : ℚ)
      - (pctF (countersOf rowsW
        ("2026-02-25".toList, "forebet".toList))).toRat| ≤ 1 / 2
    ∧ siteRow (countersOf rowsW) (sortedDatesOf rowsW) "forebet".toList
        ∈ (rebuild_leaderboard rowsW).2 :=
  ⟨((C7_leaderboard_row rowsW ("forebet".toList)).2.2.1
      ("2026-02-25".toList) (by decide)).2,
   (C7_leaderboard_row rowsW ("forebet".toList)).2.2.2.2.2 (by decide)⟩

/-- C8: the rebuilt leaderboard rows are sorted by their average sort key
descending (the key of a `"—"` average is `-1`, below every numeric key,
which is nonnegative), the output is a permutation of the per-site rows, and
the order is deterministic: a row earlier in the fixed site list stays above
any later row whose key is not larger (stable tie-break). -/
theorem C8_leaderboard_sorted (rows : List Row) :
    ((rebuild_leaderboard rows).2).Sorted
        (fun x y => (sortKeyF y).toRat ≤ (sortKeyF x).toRat)
    ∧ ((rebuild_leaderboard rows).2).Perm
        (SITES.map (siteRow (countersOf rows) (sortedDatesOf rows)))
    ∧ (∀ x ∈ (rebuild_leaderboard rows).2,
        (x.avg = none → (sortKeyF x).toRat = -1)
        ∧ (∀ f, x.avg = some f → 0 ≤ (sortKeyF x).toRat))
    ∧ (∀ (a b : LBRow) (l1 l2 l3 : List LBRow),
        SITES.map (siteRow (countersOf rows) (sortedDatesOf rows))
          = l1 ++ a :: (l2 ++ b :: l3) →
        (sortKeyF b).toRat ≤ (sortKeyF a).toRat →
        List.Sublist [a, b] ((rebuild_leaderboard rows).2)) := by
  refine ⟨?_, ?_, ?_, ?_⟩
  · have hs := List.sorted_insertionSort
      (fun x y => fleB (sortKeyF y) (sortKeyF x) = true)
      (SITES.map (siteRow (countersOf rows) (sortedDatesOf rows)))
    exact hs.imp (fun hab =>
      (fleB_iff (sortKeyF_den_pos _) (sortKeyF_den_pos _)).mp hab)
  · exact List.perm_insertionSort _ _
  · intro x hx
    constructor
    · intro hnone
      simp [sortKeyF, hnone, Frac.toRat]
    · intro f hf
      have hx2 : x ∈ SITES.map (siteRow (countersOf rows) (sortedDatesOf rows)) :=
        (List.mem_insertionSort _).mp hx
      rcases List.mem_map.mp hx2 with ⟨site, _, hsx⟩
      have hcells := siteCells_go (countersOf rows) site (sortedDatesOf rows) [] []
      have hnums : x.numericPcts = ((sortedDatesOf rows).filter
          (fun d => 0 < (countersOf rows (d, site)).1)).map
          (fun d => pctF (countersOf rows (d, site))) := by
        rw [← hsx]
        simp only [siteRow, hcells, List.nil_append]
      have hden : ∀ g ∈ x.numericPcts, 0 < g.den := by
        intro g hg
        rw [hnums] at hg
        rcases List.mem_map.mp hg with ⟨d, hd, hgd⟩
        rcases List.mem_filter.mp hd with ⟨_, hd2⟩
        rw [← hgd]
        exact pctF_den_pos (by simpa using hd2)
      have hnn : ∀ g ∈ x.numericPcts, 0 ≤ g.num := by
        intro g hg
        rw [hnums] at hg
        rcases List.mem_map.mp hg with ⟨d, _, hgd⟩
        rw [← hgd]
        exact pctF_num_nonneg _
      have havg : x.avg = (if x.numericPcts = [] then none
          else some (fdivNat (fsum x.numericPcts) x.numericPcts.length)) := by
        rw [← hsx]
        simp only [siteRow, hcells, List.nil_append]
      rw [havg] at hf
      by_cases hnil : x.numericPcts = []
      · rw [if_pos hnil] at hf
        cases hf
      · rw [if_neg hnil] at hf
        obtain ⟨hsd, _, hsn⟩ := fsum_go x.numericPcts (Frac.mk 0 1)
          (by norm_num) hden
        have hfden : 0 < f.den := by
          cases hf
          simp only [fdivNat, fsum]
          have hlen : 0 < (x.numericPcts.length : ℤ) := by
            exact_mod_cast List.length_pos.mpr hnil
          exact mul_pos hsd hlen
        have hfnum : 0 ≤ f.num := by
          cases hf
          simp only [fdivNat, fsum]
          exact hsn (by norm_num) hnn
        have havg2 : x.avg = some f := by
          rw [havg, if_neg hnil]
          exact hf
        have hkey : sortKeyF x = ⟨rheF ⟨10 * f.num, f.den⟩, 10⟩ := by
          simp only [sortKeyF, havg2]
        rw [hkey]
        apply toRat_nonneg
        · exact rheF_nonneg (by positivity) hfden
        · norm_num
  · intro a b l1 l2 l3 hdec hkey
    have hab : fleB (sortKeyF b) (sortKeyF a) = true :=
      (fleB_iff (sortKeyF_den_pos b) (sortKeyF_den_pos a)).mpr hkey
    have hsub : List.Sublist [a, b]
        (SITES.map (siteRow (countersOf rows) (sortedDatesOf rows))) := by
      rw [hdec]
      refine List.Sublist.trans ?_ (List.sublist_append_right l1 _)
      refine List.cons_sublist_cons.mpr ?_
      refine List.Sublist.trans ?_ (List.sublist_append_right l2 _)
      exact List.cons_sublist_cons.mpr (List.nil_sublist l3)
    exact List.pair_sublist_insertionSort hab hsub

/-- Witness for C8: on the one-day sheet `rowsW`, forebet (numeric average)
stays above predictz (`"—"` average), and forebet's key is nonnegative while
a `"—"` row's key is `-1`. -/
theorem C8_witness :
    List.Sublist [fbRowW, emptyRowW ("predictz".toList)] ((rebuild_leaderboard rowsW).2)
    ∧ (0 : ℚ) ≤ (sortKeyF fbRowW).toRat
    ∧ (sortKeyF (emptyRowW ("claude".toList))).toRat = -1 := by
  refine ⟨?_, ?_, ?_⟩
  · refine (C8_leaderboard_sorted rowsW).2.2.2 fbRowW
      (emptyRowW ("predictz".toList)) [] []
      [emptyRowW ("onemillion".toList), emptyRowW ("vitibet".toList),
       emptyRowW ("freesupertips".toList), emptyRowW ("claude".toList)]
      (by decide) ?_
    have h := ((C8_leaderboard_sorted rowsW).2.2.1 fbRowW ?_).2 ⟨100, 1⟩ (by decide)
    · refine le_trans ?_ h
      norm_num [sortKeyF, emptyRowW, Frac.toRat]
    · have hperm := (C8_leaderboard_sorted rowsW).2.1
      exact hperm.mem_iff.mpr (by decide)
  · exact ((C8_leaderboard_sorted rowsW).2.2.1 fbRowW
      ((C8_leaderboard_sorted rowsW).2.1.mem_iff.mpr (by decide))).2
      ⟨100, 1⟩ (by decide)
  · exact ((C8_leaderboard_sorted rowsW).2.2.1 (emptyRowW ("claude".toList))
      ((C8_leaderboard_sorted rowsW).2.1.mem_iff.mpr (by decide))).1 (by decide)

/-- C9: a scoring run aborts exactly when the results snapshot is missing or
marked failed; a missing or failed per-source predictions snapshot degrades
that source to an empty prediction list and the run is unchanged if that
snapshot is replaced by a healthy empty one. -/
theorem C9_abort_conditions (file : Option ResultsFile) (rf : ResultsFile)
    (files : Str → Option PredFile) (site : Str)
    (h : files site = none
      ∨ ∃ f, files site = some f ∧ f.status = "failed".toList) :
    (runDay file files = Except.error () ↔
      (file = none ∨ ∃ g, file = some g ∧ g.status = some ("failed".toList)))
    ∧ load_predictions files site = []
    ∧ runDay (some rf) files
        = runDay (some rf) (setFile files site (some ⟨"ok".toList, []⟩)) := by
  have hload : load_predictions files site = [] := by
    rw [load_predictions]
    rcases h with h1 | ⟨f, h1, h2⟩
    · rw [h1]
    · rw [h1]
      simp [h2]
  refine ⟨?_, hload, ?_⟩
  · cases file with
    | none => simp [runDay, load_results]
    | some g =>
      by_cases hg : g.status = some ("failed".toList)
      · simp [runDay, load_results, hg]
      · simp only [runDay, load_results, hg, if_neg, if_false]
        constructor
        · intro hcon
          cases hcon
        · rintro (hcon | ⟨g2, hg2, hst⟩)
          · cases hcon
          · cases hg2
            exact absurd hst hg
  · rw [runDay, runDay]
    cases hload2 : load_results (some rf) with
    | error e => rfl
    | ok results =>
      have hsame : load_predictions files
          = load_predictions (setFile files site (some ⟨"ok".toList, []⟩)) := by
        funext s
        by_cases hs : s = site
        · subst hs
          rw [hload, load_predictions, setFile]
          simp
        · rw [load_predictions, load_predictions, setFile]
          simp [hs]
      rw [hsame]

/-- Witness for C9: a run with no results file errors; with a healthy empty
results file, an all-missing predictions assignment behaves like one where
forebet has a healthy empty snapshot. -/
theorem C9_witness :
    (runDay none (fun _ => none) = Except.error () ↔
      ((none : Option ResultsFile) = none
        ∨ ∃ g, (none : Option ResultsFile) = some g
            ∧ g.status = some ("failed".toList)))
    ∧ load_predictions (fun _ => none) ("forebet".toList) = []
    ∧ runDay (some rfEmpty) (fun _ => none)
        = runDay (some rfEmpty)
            (setFile (fun _ => none) ("forebet".toList)
              (some ⟨"ok".toList, []⟩)) :=
  C9_abort_conditions none rfEmpty (fun _ => none) ("forebet".toList)
    (Or.inl rfl)

/-- C10: an input made only of suffix tokens, hyphens, underscores and
whitespace normalizes to the empty string (for example `"FC"`); the matcher
skips a candidate pair only on raw emptiness — a result whose raw names are
`"FC"` (empty after normalization) is still compared (and here matched),
while a result whose raw names are empty is skipped and never returned. -/
theorem C10_empty_normalization (x : Str)
    (h1 : ∀ r ∈ wordRuns ((x.map pyLower).map replDash), isSuffixTok r = true)
    (h2 : ∀ c ∈ (x.map pyLower).map replDash,
        isWordChar c = true ∨ c.isWhitespace = true) :
    normalize x = []
    ∧ normalize "FC".toList = []
    ∧ find_result pFC.home_team pFC.away_team [mrFCnames] = some mrFCnames
    ∧ find_result pFC.home_team pFC.away_team [mrNoNames] = none :=
  ⟨normalize_suffixOnly x h1 h2, by decide, by decide, by decide⟩

/-- Witness for C10: the hypotheses hold for the input `"FC"`. -/
theorem C10_witness :
    normalize "FC".toList = []
    ∧ normalize "FC".toList = []
    ∧ find_result pFC.home_team pFC.away_team [mrFCnames] = some mrFCnames
    ∧ find_result pFC.home_team pFC.away_team [mrNoNames] = none :=
  C10_empty_normalization "FC".toList (by decide) (by decide)

end BetTracker
